import Mathlib

/-
  Verification of the aiweb media-dubbing pipeline.

  Shallow embedding of:
    * the retry helper (utils/retry.js),
    * the worker processor (worker: progress reporting, stage fallback,
      TTS input selection, SRT builders, result assembly),
    * the ASR response normalizer (normalizeAsrResponse).

  JS numbers are modelled as rationals (with `Option ℚ`, `none` = NaN,
  where non-finite values matter); machine-level float rounding is not
  modelled, matching the spec's "exact arithmetic" reading.
-/

namespace Aiweb

/-! ## Retry helper (utils/retry.js)

    async function retry(fn, opts):
      attempt = 0
      while attempt <= retries:
        try: return await fn()
        catch err:
          lastErr = err; attempt++
          if attempt > retries: break
          await wait(floor(minDelay * factor^(attempt-1)))
      throw lastErr

    The fallible operation is modelled as `f : ℕ → Except String α`,
    giving the outcome of the k-th call (0-based).  The embedding also
    records the sleep durations (ms, floored to an integer as in the
    source) and the number of calls made. -/

structure RetryTrace (α : Type) where
  result : Except String α
  sleeps : List ℤ
  calls : ℕ
  deriving Repr

/-- Loop body of `retry`, with `gas = retries + 1 - attempt` remaining
    permitted calls.  `gas = 0` is unreachable from `retry` (which starts
    with `gas = retries + 1`); it corresponds to JS throwing the
    still-undefined `lastErr`. -/
def retryAux (f : ℕ → Except String α) (minDelay factor : ℚ) :
    ℕ → ℕ → RetryTrace α
  | _, 0 => ⟨Except.error "", [], 0⟩
  | attempt, gas + 1 =>
    match f attempt with
    | Except.ok a => ⟨Except.ok a, [], 1⟩
    | Except.error e =>
      if gas = 0 then ⟨Except.error e, [], 1⟩
      else
        -- after the failure, attempt has become attempt+1 in the source,
        -- so the sleep is floor(minDelay * factor^((attempt+1)-1)).
        let d : ℤ := ⌊minDelay * factor ^ attempt⌋
        let t := retryAux f minDelay factor (attempt + 1) gas
        ⟨t.result, d :: t.sleeps, t.calls + 1⟩

/-- `retry fn {retries, minDelay, factor}` from utils/retry.js. -/
def retry (f : ℕ → Except String α) (retries : ℕ) (minDelay factor : ℚ) :
    RetryTrace α :=
  retryAux f minDelay factor 0 (retries + 1)

/-! ## Proportional subtitle fallback (worker, segmentTranscriptToSrt)

    The source splits the text into sentence parts (regex split on
    whitespace preceded by [.!?], trimmed, empties dropped), then lays
    cues end-to-end:

      totalChars = Σ len(pᵢ)
      for i: duration = totalSeconds * (chars / totalChars)
             start = cursor; end = cursor + duration; cursor = end

    The embedding takes the sentence parts list directly (the split
    guarantees each part is a non-empty string) and returns the cue
    records; the source renders each cue as
    `idx\nformatSrtTime(start) --> formatSrtTime(end)\ntext\n\n`. -/

structure PropCue where
  idx : ℕ
  start : ℚ
  stop : ℚ
  text : String
  deriving Repr

/-- Cue-emitting loop of `segmentTranscriptToSrt` (cursor-carrying). -/
def segmentCuesAux (totalSeconds totalChars : ℚ) :
    List String → ℕ → ℚ → List PropCue
  | [], _, _ => []
  | p :: rest, i, cursor =>
    let duration := totalSeconds * ((p.length : ℚ) / totalChars)
    let start := cursor
    let stop := cursor + duration
    ⟨i + 1, start, stop, p⟩ :: segmentCuesAux totalSeconds totalChars rest (i + 1) stop

/-- `segmentTranscriptToSrt` (worker), as the list of emitted cues. -/
def segmentTranscriptToSrt (parts : List String) (totalSeconds : ℚ) :
    List PropCue :=
  if parts = [] then []
  else
    let totalChars : ℚ := ((parts.map String.length).sum : ℕ)
    segmentCuesAux totalSeconds totalChars parts 0 0

/-! ## TTS input / subtitle source selection (worker)

      const ttsInput = (translatedText &&
        !translatedText.startsWith('TRANSLATION error'))
          ? translatedText : transcriptText;
      const srcText  = (translatedText &&
        !translatedText.startsWith('TRANSLATION error'))
          ? translatedText : transcriptText;

    JS string truthiness = non-empty. -/

/-- JS `s.startsWith(search)`, modelled over the character list. -/
def jsStartsWith (s search : String) : Bool :=
  search.toList.isPrefixOf s.toList

/-- `ttsInput` selection (worker, synthesize stage). -/
def ttsInputFor (translatedText transcriptText : String) : String :=
  if translatedText ≠ "" ∧ ¬ jsStartsWith translatedText "TRANSLATION error"
  then translatedText else transcriptText

/-- `srcText` selection (worker, subtitle burning) — textually the same
    expression as `ttsInput`. -/
def srcTextFor (translatedText transcriptText : String) : String :=
  if translatedText ≠ "" ∧ ¬ jsStartsWith translatedText "TRANSLATION error"
  then translatedText else transcriptText

/-! ## Word-grouped subtitle builder (worker, burn-subtitles branch)

    let i = 0, idx = 1
    while (i < words.length):
      start = Number(words[i].start) || 0
      j = i; end = Number(words[i].end) || start
      parts = []; chars = 0
      while (j < words.length && parts.length < maxWords):
        w = words[j]
        wStart = Number(w.start) || end
        wEnd = Number(w.end) || wStart
        if ((wEnd - start) > maxDur && parts.length > 0) break
        wordLen = String(w.word || '').length + 1
        if ((chars + wordLen) > maxChars && parts.length > 0) break
        parts.push(w.word); chars += wordLen; end = wEnd; j++
      emit cue (start, end, parts.join(' ')); i = j

    Words are the flattened `{word, start, end}` records with numeric
    times, as the claim assumes; `Number(x) || d` on a numeric `x` is
    `or0 x d` below. -/

structure TimedWord where
  word : String
  start : ℚ
  stop : ℚ
  deriving Repr, Inhabited

/-- `Number(x) || d` for a numeric `x`: `0` is falsy. -/
def or0 (x d : ℚ) : ℚ := if x = 0 then d else x

/-- One emitted cue: start/stop times and the words grouped into it (the
    source stores `parts = words.map(w => w.word)` and joins with spaces). -/
structure Cue4 where
  start : ℚ
  stop : ℚ
  words : List TimedWord
  deriving Repr, Inhabited

/-- `parts.join(' ')`. -/
def joinSpace : List String → String
  | [] => ""
  | [a] => a
  | a :: b :: rest => a ++ " " ++ joinSpace (b :: rest)

/-- The cue's rendered text. -/
def Cue4.text (c : Cue4) : String := joinSpace (c.words.map TimedWord.word)

/-- Inner grouping loop; arguments after `start` are the remaining words,
    the running `end`, the accumulated `chars`, and `parts.length`.
    Returns (consumed words, final `end`, remaining words).  The source's
    `wEnd = Number(w.end) || (Number(w.start) || end)` is inlined as
    `or0 w.stop (or0 w.start e)`, and `wordLen = len(w.word) + 1`. -/
def groupLine (maxWords : ℕ) (maxDur : ℚ) (maxChars : ℤ) (start : ℚ) :
    List TimedWord → ℚ → ℕ → ℕ → List TimedWord × ℚ × List TimedWord
  | [], e, _, _ => ([], e, [])
  | w :: rest, e, chars, cnt =>
    if maxWords ≤ cnt then ([], e, w :: rest)
    else if maxDur < or0 w.stop (or0 w.start e) - start ∧ 0 < cnt then
      ([], e, w :: rest)
    else if maxChars < (chars : ℤ) + ((w.word.length + 1 : ℕ) : ℤ) ∧ 0 < cnt then
      ([], e, w :: rest)
    else
      (w :: (groupLine maxWords maxDur maxChars start rest
              (or0 w.stop (or0 w.start e)) (chars + (w.word.length + 1))
              (cnt + 1)).1,
       (groupLine maxWords maxDur maxChars start rest
              (or0 w.stop (or0 w.start e)) (chars + (w.word.length + 1))
              (cnt + 1)).2)

/-- Outer cue loop.  `fuel` bounds the number of cues; `groupWords` passes
    `words.length`, which suffices whenever `maxWords ≥ 1` (with
    `maxWords = 0` the JS loop never advances `i` and runs forever). -/
def groupWordsAux (maxWords : ℕ) (maxDur : ℚ) (maxChars : ℤ) :
    ℕ → List TimedWord → List Cue4
  | _, [] => []
  | 0, _ :: _ => []
  | fuel + 1, w :: rest =>
    let start := or0 w.start 0
    let e0 := or0 w.stop start
    let r := groupLine maxWords maxDur maxChars start (w :: rest) e0 0 0
    ⟨start, r.2.1, r.1⟩ :: groupWordsAux maxWords maxDur maxChars fuel r.2.2

/-- The word-grouped SRT construction (algorithm A), as the list of cues
    (the source renders each as
    `idx\nformatSrtTime(start) --> formatSrtTime(end)\nparts.join(' ')\n\n`). -/
def groupWords (maxWords : ℕ) (maxDur : ℚ) (maxChars : ℤ)
    (ws : List TimedWord) : List Cue4 :=
  groupWordsAux maxWords maxDur maxChars ws.length ws

/-- Clean, ordered word timings: every word has `0 ≤ start ≤ stop` and
    consecutive words do not overlap. -/
def MonoWords (ws : List TimedWord) : Prop :=
  (∀ w ∈ ws, 0 ≤ w.start ∧ w.start ≤ w.stop)
  ∧ ws.Chain' (fun a b => a.stop ≤ b.start)

/-- `Σ (len(word)+1)` — the `chars` accumulator over a word list. -/
def sumLen (l : List TimedWord) : ℕ :=
  (l.map (fun w => w.word.length + 1)).sum

/-! ### Lemmas about the word-grouping loop -/

theorem or0_zero (x : ℚ) : or0 x 0 = x := by
  by_cases h : x = 0
  · rw [or0, if_pos h, h]
  · rw [or0, if_neg h]

theorem or0_end_eq (w : TimedWord) (e : ℚ)
    (hw : 0 ≤ w.start ∧ w.start ≤ w.stop)
    (he0 : 0 ≤ e) (heb : e ≤ w.stop) :
    or0 w.stop (or0 w.start e) = w.stop := by
  by_cases hs : w.stop = 0
  · have h1 : w.start = 0 := le_antisymm (hs ▸ hw.2) hw.1
    have h2 : e = 0 := le_antisymm (hs ▸ heb) he0
    rw [or0, if_pos hs, or0, if_pos h1, h2, hs]
  · rw [or0, if_neg hs]

theorem sumLen_cons (w : TimedWord) (l : List TimedWord) :
    sumLen (w :: l) = (w.word.length + 1) + sumLen l := by
  simp [sumLen]

theorem joinSpace_length :
    ∀ (l : List String), l ≠ [] →
    (joinSpace l).length + 1 = (l.map (fun s => s.length + 1)).sum := by
  intro l
  induction l with
  | nil => intro h; exact absurd rfl h
  | cons a rest ih =>
    intro _
    cases rest with
    | nil => simp [joinSpace]
    | cons b t =>
      have := ih (by simp)
      simp only [joinSpace, List.map_cons, List.sum_cons] at this ⊢
      rw [String.length_append, String.length_append]
      have hsp : (" ").length = 1 := rfl
      omega

theorem MonoWords_tail {w : TimedWord} {rest : List TimedWord}
    (h : MonoWords (w :: rest)) : MonoWords rest :=
  ⟨fun x hx => h.1 x (List.mem_cons_of_mem w hx),
   (List.chain'_cons'.mp h.2).2⟩

theorem MonoWords_append_right {xs ys : List TimedWord}
    (h : MonoWords (xs ++ ys)) : MonoWords ys :=
  ⟨fun x hx => h.1 x (List.mem_append_right xs hx),
   ((List.chain'_append.mp h.2).2).1⟩

section GroupLineLemmas

variable (mw : ℕ) (md : ℚ) (mc : ℤ) (start : ℚ)

theorem groupLine_cases (w : TimedWord) (rest : List TimedWord) (e : ℚ)
    (chars cnt : ℕ) :
    (groupLine mw md mc start (w :: rest) e chars cnt = ([], e, w :: rest))
    ∨ ((¬ mw ≤ cnt)
        ∧ (¬ (md < or0 w.stop (or0 w.start e) - start ∧ 0 < cnt))
        ∧ (¬ (mc < (chars : ℤ) + ((w.word.length + 1 : ℕ) : ℤ) ∧ 0 < cnt))
        ∧ groupLine mw md mc start (w :: rest) e chars cnt =
          (w :: (groupLine mw md mc start rest (or0 w.stop (or0 w.start e))
              (chars + (w.word.length + 1)) (cnt + 1)).1,
           (groupLine mw md mc start rest (or0 w.stop (or0 w.start e))
              (chars + (w.word.length + 1)) (cnt + 1)).2)) := by
  by_cases h1 : mw ≤ cnt
  · left; rw [groupLine, if_pos h1]
  · by_cases h2 : md < or0 w.stop (or0 w.start e) - start ∧ 0 < cnt
    · left; rw [groupLine, if_neg h1, if_pos h2]
    · by_cases h3 : mc < (chars : ℤ) + ((w.word.length + 1 : ℕ) : ℤ) ∧ 0 < cnt
      · left; rw [groupLine, if_neg h1, if_neg h2, if_pos h3]
      · right
        exact ⟨h1, h2, h3, by rw [groupLine, if_neg h1, if_neg h2, if_neg h3]⟩

theorem groupLine_decomp :
    ∀ (ws : List TimedWord) (e : ℚ) (chars cnt : ℕ),
    ws = (groupLine mw md mc start ws e chars cnt).1
      ++ (groupLine mw md mc start ws e chars cnt).2.2 := by
  intro ws
  induction ws with
  | nil => intro e chars cnt; rfl
  | cons w rest ih =>
    intro e chars cnt
    rcases groupLine_cases mw md mc start w rest e chars cnt with heq | ⟨_, _, _, heq⟩
    · rw [heq]; rfl
    · rw [heq]
      simpa using congrArg (List.cons w)
        (ih (or0 w.stop (or0 w.start e)) (chars + (w.word.length + 1)) (cnt + 1))

theorem groupLine_count :
    ∀ (ws : List TimedWord) (e : ℚ) (chars cnt : ℕ),
    (groupLine mw md mc start ws e chars cnt).1 ≠ [] →
    cnt + (groupLine mw md mc start ws e chars cnt).1.length ≤ mw := by
  intro ws
  induction ws with
  | nil => intro e chars cnt h; exact absurd rfl h
  | cons w rest ih =>
    intro e chars cnt h
    rcases groupLine_cases mw md mc start w rest e chars cnt with heq | ⟨h1, _, _, heq⟩
    · rw [heq] at h; exact absurd rfl h
    · rw [heq]
      by_cases hr1 : (groupLine mw md mc start rest (or0 w.stop (or0 w.start e))
          (chars + (w.word.length + 1)) (cnt + 1)).1 = []
      · simp [hr1]; omega
      · have := ih (or0 w.stop (or0 w.start e)) (chars + (w.word.length + 1))
          (cnt + 1) hr1
        simp only [List.length_cons]
        omega

theorem groupLine_nonempty (w : TimedWord) (rest : List TimedWord) (e : ℚ)
    (chars : ℕ) (hmw : 0 < mw) :
    (groupLine mw md mc start (w :: rest) e chars 0).1 ≠ [] := by
  rw [groupLine, if_neg (by omega), if_neg (fun h => absurd h.2 (lt_irrefl 0)),
    if_neg (fun h => absurd h.2 (lt_irrefl 0))]
  simp

theorem groupLine_chars :
    ∀ (ws : List TimedWord) (e : ℚ) (chars cnt : ℕ), 1 ≤ cnt →
    (chars : ℤ) + (sumLen (groupLine mw md mc start ws e chars cnt).1 : ℤ)
      ≤ max mc (chars : ℤ) := by
  intro ws
  induction ws with
  | nil =>
    intro e chars cnt _
    simp [groupLine, sumLen]
  | cons w rest ih =>
    intro e chars cnt hcnt
    rcases groupLine_cases mw md mc start w rest e chars cnt with heq | ⟨_, _, h3, heq⟩
    · rw [heq]; simp [sumLen]
    · rw [heq]
      have hstep : (chars : ℤ) + ((w.word.length + 1 : ℕ) : ℤ) ≤ mc := by
        rcases not_and_or.mp h3 with h | h
        · omega
        · omega
      have hih := ih (or0 w.stop (or0 w.start e)) (chars + (w.word.length + 1))
        (cnt + 1) (by omega)
      rw [max_eq_left (by push_cast at hstep ⊢; omega)] at hih
      rw [sumLen_cons]
      have hmcle : mc ≤ max mc (chars : ℤ) := le_max_left _ _
      push_cast at hih ⊢
      omega

theorem groupLine_chars0 (w : TimedWord) (rest : List TimedWord) (e : ℚ)
    (chars : ℕ) (w0 : TimedWord) (tail : List TimedWord)
    (heqc : (groupLine mw md mc start (w :: rest) e chars 0).1 = w0 :: tail) :
    (sumLen (groupLine mw md mc start (w :: rest) e chars 0).1 : ℤ)
      ≤ max mc ((w0.word.length : ℤ) + 1) := by
  rcases groupLine_cases mw md mc start w rest e chars 0 with heq | ⟨_, _, _, heq⟩
  · rw [heq] at heqc; simp at heqc
  · rw [heq] at heqc ⊢
    injection heqc with hw0 htail
    subst hw0
    have hih := groupLine_chars mw md mc start rest (or0 w.stop (or0 w.start e))
      (chars + (w.word.length + 1)) 1 (le_refl 1)
    rw [sumLen_cons]
    rcases le_total ((chars : ℤ) + ((w.word.length + 1 : ℕ) : ℤ)) mc with hmc | hmc
    · rw [max_eq_left (by push_cast at hmc ⊢; omega)] at hih
      have : mc ≤ max mc ((w.word.length : ℤ) + 1) := le_max_left _ _
      push_cast at hih ⊢
      omega
    · rw [max_eq_right (by push_cast at hmc ⊢; omega)] at hih
      have : ((w.word.length : ℤ) + 1) ≤ max mc ((w.word.length : ℤ) + 1) :=
        le_max_right _ _
      push_cast at hih ⊢
      omega

theorem groupLine_mono :
    ∀ (ws : List TimedWord) (e : ℚ) (chars cnt : ℕ),
    MonoWords ws → 0 ≤ e → (∀ w0 ∈ ws.head?, e ≤ w0.stop) →
    ((groupLine mw md mc start ws e chars cnt).1 = [] →
        (groupLine mw md mc start ws e chars cnt).2.1 = e)
    ∧ (∀ w', (groupLine mw md mc start ws e chars cnt).1.getLast? = some w' →
        (groupLine mw md mc start ws e chars cnt).2.1 = w'.stop)
    ∧ e ≤ (groupLine mw md mc start ws e chars cnt).2.1
    ∧ (1 ≤ cnt → ∀ w' ∈ (groupLine mw md mc start ws e chars cnt).1,
        w'.stop - start ≤ md) := by
  intro ws
  induction ws with
  | nil =>
    intro e chars cnt _ _ _
    refine ⟨fun _ => rfl, ?_, le_refl e, ?_⟩
    · intro w' h; simp [groupLine] at h
    · intro _ w' h; simp [groupLine] at h
  | cons w rest ih =>
    intro e chars cnt hM he0 heb
    have hw := hM.1 w (List.mem_cons_self w rest)
    have hebw : e ≤ w.stop := heb w (by simp)
    have hwEnd : or0 w.stop (or0 w.start e) = w.stop := or0_end_eq w e hw he0 hebw
    rcases groupLine_cases mw md mc start w rest e chars cnt with heq | ⟨_, h2, _, heq⟩
    · rw [heq]
      refine ⟨fun _ => rfl, ?_, le_refl e, ?_⟩
      · intro w' h; simp at h
      · intro _ w' h; simp at h
    · have hMt : MonoWords rest := MonoWords_tail hM
      have he0' : (0:ℚ) ≤ or0 w.stop (or0 w.start e) := by
        rw [hwEnd]; linarith [hw.1, hw.2]
      have heb' : ∀ w0 ∈ rest.head?, or0 w.stop (or0 w.start e) ≤ w0.stop := by
        intro w0 hw0
        rw [hwEnd]
        cases rest with
        | nil => simp at hw0
        | cons y ys =>
          simp at hw0
          subst hw0
          have hch := (List.chain'_cons'.mp hM.2).1 y (by simp)
          have hy' := hM.1 y (by simp)
          linarith [hy'.2]
      obtain ⟨ihe, ihlast, ihle, ihdur⟩ :=
        ih (or0 w.stop (or0 w.start e)) (chars + (w.word.length + 1)) (cnt + 1)
          hMt he0' heb'
      rw [heq]
      refine ⟨?_, ?_, ?_, ?_⟩
      · intro h; simp at h
      · intro w' hlast
        cases hr1 : (groupLine mw md mc start rest (or0 w.stop (or0 w.start e))
            (chars + (w.word.length + 1)) (cnt + 1)).1 with
        | nil =>
          rw [hr1] at hlast
          simp at hlast
          subst hlast
          simpa [hwEnd] using ihe hr1
        | cons x xs =>
          rw [hr1, List.getLast?_cons_cons] at hlast
          exact ihlast w' (by rw [hr1]; exact hlast)
      · calc e ≤ w.stop := hebw
          _ = or0 w.stop (or0 w.start e) := hwEnd.symm
          _ ≤ _ := ihle
      · intro hcnt w' hw'
        simp only [List.mem_cons] at hw'
        rcases hw' with rfl | hw'
        · have hnd : ¬ (md < or0 w'.stop (or0 w'.start e) - start) := by
            rcases not_and_or.mp h2 with h | h
            · exact h
            · omega
          rw [hwEnd] at hnd
          linarith [not_lt.mp hnd]
        · exact ihdur (by omega) w' hw'

theorem groupLine_dur0 (w : TimedWord) (rest : List TimedWord) (e : ℚ)
    (chars : ℕ) (hM : MonoWords (w :: rest)) (he0 : 0 ≤ e) (hebw : e ≤ w.stop)
    (w0 : TimedWord) (tail : List TimedWord)
    (heqc : (groupLine mw md mc start (w :: rest) e chars 0).1 = w0 :: tail) :
    (groupLine mw md mc start (w :: rest) e chars 0).2.1 - start
      ≤ max md (w0.stop - start) := by
  have hw := hM.1 w (List.mem_cons_self w rest)
  have hwEnd : or0 w.stop (or0 w.start e) = w.stop := or0_end_eq w e hw he0 hebw
  rcases groupLine_cases mw md mc start w rest e chars 0 with heq | ⟨_, _, _, heq⟩
  · rw [heq] at heqc; simp at heqc
  · rw [heq] at heqc ⊢
    injection heqc with hw0 htail
    subst hw0
    have hMt : MonoWords rest := MonoWords_tail hM
    have he0' : (0:ℚ) ≤ or0 w.stop (or0 w.start e) := by
      rw [hwEnd]; linarith [hw.1, hw.2]
    have heb' : ∀ y ∈ rest.head?, or0 w.stop (or0 w.start e) ≤ y.stop := by
      intro y hy
      rw [hwEnd]
      cases rest with
      | nil => simp at hy
      | cons z zs =>
        simp at hy
        subst hy
        have hch := (List.chain'_cons'.mp hM.2).1 z (by simp)
        have hz' := hM.1 z (by simp)
        linarith [hz'.2]
    obtain ⟨ihe, ihlast, _, ihdur⟩ :=
      groupLine_mono mw md mc start rest (or0 w.stop (or0 w.start e))
        (chars + (w.word.length + 1)) 1 hMt he0' heb'
    show (groupLine mw md mc start rest (or0 w.stop (or0 w.start e))
        (chars + (w.word.length + 1)) 1).2.1 - start ≤ max md (w.stop - start)
    cases hr1 : (groupLine mw md mc start rest (or0 w.stop (or0 w.start e))
        (chars + (w.word.length + 1)) 1).1 with
    | nil =>
      rw [ihe hr1, hwEnd]
      exact le_max_right _ _
    | cons x xs =>
      cases hlq : (x :: xs).getLast? with
      | none => simp at hlq
      | some wl =>
        have he' := ihlast wl (by rw [hr1]; exact hlq)
        have hmem : wl ∈ x :: xs := List.mem_of_mem_getLast? hlq
        have hdur := ihdur (le_refl 1) wl (by rw [hr1]; exact hmem)
        rw [he']
        exact le_max_of_le_left hdur

end GroupLineLemmas

/-- All bounds claim C4 states for one emitted cue. -/
def CueOk (mw : ℕ) (md : ℚ) (mc : ℤ) (c : Cue4) : Prop :=
  (∃ w0 tail, c.words = w0 :: tail
    ∧ c.words.length ≤ max mw 1
    ∧ (c.text.length : ℤ) ≤ max mc ((w0.word.length : ℤ) + 1)
    ∧ c.stop - c.start ≤ max md (w0.stop - w0.start)
    ∧ c.start = w0.start)
  ∧ (∀ w', c.words.getLast? = some w' → c.stop = w'.stop)
  ∧ c.start ≤ c.stop

theorem e0_facts (w : TimedWord) (hw : 0 ≤ w.start ∧ w.start ≤ w.stop) :
    w.start ≤ or0 w.stop w.start ∧ 0 ≤ or0 w.stop w.start
      ∧ or0 w.stop w.start ≤ w.stop := by
  by_cases hs : w.stop = 0
  · have h1 : w.start = 0 := le_antisymm (hs ▸ hw.2) hw.1
    rw [or0, if_pos hs, h1, hs]
    exact ⟨le_refl 0, le_refl 0, le_refl 0⟩
  · rw [or0, if_neg hs]
    exact ⟨hw.2, le_trans hw.1 hw.2, le_refl _⟩

theorem sumLen_as_mapped (l : List TimedWord) :
    ((l.map TimedWord.word).map (fun s => s.length + 1)).sum = sumLen l := by
  rw [List.map_map]
  rfl

theorem groupWordsAux_spec (mw : ℕ) (md : ℚ) (mc : ℤ) (hmw : 1 ≤ mw) :
    ∀ (fuel : ℕ) (ws : List TimedWord), ws.length ≤ fuel → MonoWords ws →
    (((groupWordsAux mw md mc fuel ws).map Cue4.words).flatten = ws)
    ∧ (∀ c ∈ groupWordsAux mw md mc fuel ws, CueOk mw md mc c)
    ∧ (groupWordsAux mw md mc fuel ws).Chain' (fun a b => a.stop ≤ b.start)
    ∧ (∀ c0 ∈ (groupWordsAux mw md mc fuel ws).head?, ∀ w0 ∈ ws.head?,
        c0.start = w0.start) := by
  intro fuel
  induction fuel with
  | zero =>
    intro ws hlen _
    have hnil : ws = [] := List.length_eq_zero.mp (Nat.le_zero.mp hlen)
    subst hnil
    simp [groupWordsAux]
  | succ fuel ih =>
    intro ws hlen hM
    cases ws with
    | nil => simp [groupWordsAux]
    | cons w rest =>
      have hw := hM.1 w (List.mem_cons_self w rest)
      obtain ⟨he1, he2, he3⟩ := e0_facts w hw
      simp only [groupWordsAux, or0_zero]
      set r := groupLine mw md mc w.start (w :: rest) (or0 w.stop w.start) 0 0
        with hrdef
      have hdec : w :: rest = r.1 ++ r.2.2 :=
        groupLine_decomp mw md mc w.start (w :: rest) (or0 w.stop w.start) 0 0
      have hne : r.1 ≠ [] :=
        groupLine_nonempty mw md mc w.start w rest (or0 w.stop w.start) 0
          (by omega)
      obtain ⟨tl, hr1⟩ : ∃ tl, r.1 = w :: tl := by
        cases hc : r.1 with
        | nil => exact absurd hc hne
        | cons x xs =>
          rw [hc] at hdec
          simp only [List.cons_append, List.cons.injEq] at hdec
          exact ⟨xs, by rw [hdec.1]⟩
      have hheadb : ∀ w0 ∈ (w :: rest).head?, or0 w.stop w.start ≤ w0.stop := by
        intro w0 hw0
        simp at hw0
        subst hw0
        exact he3
      obtain ⟨_, ihlast, ihle, _⟩ :=
        groupLine_mono mw md mc w.start (w :: rest) (or0 w.stop w.start) 0 0
          hM he2 hheadb
      have hcount := groupLine_count mw md mc w.start (w :: rest)
        (or0 w.stop w.start) 0 0 hne
      have hchars0 := groupLine_chars0 mw md mc w.start w rest
        (or0 w.stop w.start) 0 w tl hr1
      rw [← hrdef] at hchars0
      have hdur0 := groupLine_dur0 mw md mc w.start w rest
        (or0 w.stop w.start) 0 hM he2 he3 w tl hr1
      have hMrem : MonoWords r.2.2 := MonoWords_append_right (hdec ▸ hM)
      have hlenrem : r.2.2.length ≤ fuel := by
        have := congrArg List.length hdec
        simp only [List.length_cons, List.length_append] at this
        have h1 : 1 ≤ r.1.length := by
          rw [hr1]; simp
        simp only [List.length_cons] at hlen
        omega
      obtain ⟨ihjoin, ihok, ihchain, ihhead⟩ := ih r.2.2 hlenrem hMrem
      refine ⟨?_, ?_, ?_, ?_⟩
      · simp only [List.map_cons, List.flatten_cons, ihjoin]
        exact hdec.symm
      · intro c hc
        simp only [List.mem_cons] at hc
        rcases hc with rfl | hc
        · refine ⟨⟨w, tl, hr1, ?_, ?_, ?_, rfl⟩, ?_, ?_⟩
          · calc r.1.length ≤ mw := by simpa using hcount
              _ ≤ max mw 1 := le_max_left _ _
          · show ((joinSpace (r.1.map TimedWord.word)).length : ℤ)
              ≤ max mc ((w.word.length : ℤ) + 1)
            have hjl := joinSpace_length (r.1.map TimedWord.word)
              (by rw [hr1]; simp)
            rw [sumLen_as_mapped] at hjl
            set M := max mc ((w.word.length : ℤ) + 1) with hMdef
            omega
          · exact hdur0
          · intro w' hlast
            exact ihlast w' hlast
          · show w.start ≤ r.2.1
            calc w.start ≤ or0 w.stop w.start := he1
              _ ≤ r.2.1 := ihle
        · exact ihok c hc
      · rw [List.chain'_cons']
        refine ⟨?_, ihchain⟩
        intro b hb
        cases hrem : r.2.2 with
        | nil =>
          rw [hrem] at hb
          simp [groupWordsAux] at hb
        | cons y ys =>
          have hbstart : b.start = y.start := by
            apply ihhead b hb y
            rw [hrem]
            rfl
          obtain ⟨wl, hwl⟩ : ∃ wl, r.1.getLast? = some wl := by
            cases hq : r.1.getLast? with
            | none =>
              rw [List.getLast?_eq_none_iff] at hq
              exact absurd hq hne
            | some z => exact ⟨z, rfl⟩
          have hbridge : wl.stop ≤ y.start := by
            have hch := (List.chain'_append.mp (hdec ▸ hM.2)).2.2
            apply hch wl hwl y
            rw [hrem]
            rfl
          show r.2.1 ≤ b.start
          rw [ihlast wl hwl, hbstart]
          exact hbridge
      · intro c0 hc0 w0 hw0
        simp only [List.head?_cons, Option.mem_def, Option.some.injEq] at hc0 hw0
        subst hc0
        subst hw0
        rfl

theorem chain_start_of_chain_stop (cues : List Cue4)
    (hc : cues.Chain' (fun a b => a.stop ≤ b.start))
    (hs : ∀ c ∈ cues, c.start ≤ c.stop) :
    cues.Chain' (fun a b => a.start ≤ b.start) := by
  induction cues with
  | nil => simp
  | cons a t ih =>
    rw [List.chain'_cons'] at hc ⊢
    refine ⟨?_, ih hc.2 (fun c hcm => hs c (List.mem_cons_of_mem a hcm))⟩
    intro b hb
    have h1 := hc.1 b hb
    have h2 := hs a (List.mem_cons_self a t)
    linarith

/-! ### Claim C4 — word-grouped subtitle bounds -/

/-- C4: for words with numeric, non-negative, monotonically non-decreasing
    start/end times and `MAX_WORDS ≥ 1`, every emitted cue has at least one
    and at most `max MAX_WORDS 1` words, text length at most
    `max MAX_CHARS (len(firstWord)+1)`, duration at most
    `max MAX_LINE_DURATION (firstWord.end − firstWord.start)`, start equal
    to its first word's start and end equal to its last word's end; the
    cues are non-overlapping (each ends before the next starts), their
    starts are non-decreasing, and together they cover every input word in
    order. -/
theorem c4_word_grouping (maxWords : ℕ) (maxDur : ℚ) (maxChars : ℤ)
    (ws : List TimedWord) (hmw : 1 ≤ maxWords) (hM : MonoWords ws) :
    (((groupWords maxWords maxDur maxChars ws).map Cue4.words).flatten = ws)
    ∧ (∀ c ∈ groupWords maxWords maxDur maxChars ws,
        ∃ w0 tail, c.words = w0 :: tail
          ∧ 1 ≤ c.words.length ∧ c.words.length ≤ max maxWords 1
          ∧ (c.text.length : ℤ) ≤ max maxChars ((w0.word.length : ℤ) + 1)
          ∧ c.stop - c.start ≤ max maxDur (w0.stop - w0.start)
          ∧ c.start = w0.start
          ∧ (∀ w', c.words.getLast? = some w' → c.stop = w'.stop)
          ∧ c.start ≤ c.stop)
    ∧ (groupWords maxWords maxDur maxChars ws).Chain' (fun a b => a.stop ≤ b.start)
    ∧ (groupWords maxWords maxDur maxChars ws).Chain'
        (fun a b => a.start ≤ b.start) := by
  obtain ⟨hjoin, hok, hchain, _⟩ :=
    groupWordsAux_spec maxWords maxDur maxChars hmw ws.length ws (le_refl _) hM
  refine ⟨hjoin, ?_, hchain, ?_⟩
  · intro c hc
    obtain ⟨⟨w0, tail, hw, hcnt, htext, hdur, hstart⟩, hlast, hse⟩ := hok c hc
    exact ⟨w0, tail, hw, by rw [hw]; simp, hcnt, htext, hdur, hstart, hlast, hse⟩
  · apply chain_start_of_chain_stop _ hchain
    intro c hc
    exact (hok c hc).2.2

/-- C4 witness: two clean words with the default bounds are grouped into
    cues that cover them in order. -/
theorem c4_word_grouping_witness :
    ((groupWords 7 4 80 [⟨"hello", 0, 1⟩, ⟨"world", 1, 2⟩]).map
      Cue4.words).flatten = [⟨"hello", 0, 1⟩, ⟨"world", 1, 2⟩] :=
  (c4_word_grouping 7 4 80 [⟨"hello", 0, 1⟩, ⟨"world", 1, 2⟩]
    (by omega) ⟨by decide, List.chain'_pair.mpr (by norm_num)⟩).1

/-! ### Lemmas about `retry` -/

theorem retryAux_step (f : ℕ → Except String α) (m fa : ℚ) (attempt gas : ℕ)
    (e : String) (he : f attempt = Except.error e) (hg : gas ≠ 0) :
    retryAux f m fa attempt (gas + 1) =
      ⟨(retryAux f m fa (attempt + 1) gas).result,
       (⌊m * fa ^ attempt⌋ : ℤ) :: (retryAux f m fa (attempt + 1) gas).sleeps,
       (retryAux f m fa (attempt + 1) gas).calls + 1⟩ := by
  simp [retryAux, he, hg]

theorem retryAux_calls_le (f : ℕ → Except String α) (m fa : ℚ) :
    ∀ gas attempt, (retryAux f m fa attempt gas).calls ≤ gas := by
  intro gas
  induction gas with
  | zero => intro attempt; simp [retryAux]
  | succ g ih =>
    intro attempt
    simp only [retryAux]
    cases hf : f attempt with
    | ok a => simp
    | error e =>
      by_cases hg : g = 0
      · simp [hg]
      · simp only [if_neg hg]
        have := ih (attempt + 1)
        omega

theorem retryAux_all_fail (f : ℕ → Except String α) (m fa : ℚ) :
    ∀ gas attempt, (∀ k, k < gas + 1 → ∃ e, f (attempt + k) = Except.error e) →
    retryAux f m fa attempt (gas + 1) =
      ⟨f (attempt + gas),
       (List.range' attempt gas).map (fun j => (⌊m * fa ^ j⌋ : ℤ)),
       gas + 1⟩ := by
  intro gas
  induction gas with
  | zero =>
    intro attempt h
    obtain ⟨e, he⟩ := h 0 (by omega)
    simp only [Nat.add_zero] at he
    simp [retryAux, he, List.range']
  | succ g ih =>
    intro attempt h
    obtain ⟨e, he⟩ := h 0 (by omega)
    simp only [Nat.add_zero] at he
    have step : retryAux f m fa (attempt + 1) (g + 1) =
        ⟨f (attempt + 1 + g),
         (List.range' (attempt + 1) g).map (fun j => (⌊m * fa ^ j⌋ : ℤ)),
         g + 1⟩ := by
      apply ih
      intro k hk
      have := h (k + 1) (by omega)
      rwa [show attempt + (k + 1) = attempt + 1 + k by omega] at this
    rw [retryAux_step f m fa attempt (g + 1) e he (Nat.succ_ne_zero g), step]
    simp only [List.range'_succ, List.map_cons]
    rw [show attempt + 1 + g = attempt + (g + 1) by omega]

theorem retryAux_success (f : ℕ → Except String α) (m fa : ℚ) (a : α) :
    ∀ i attempt gas, i < gas →
    (∀ k, k < i → ∃ e, f (attempt + k) = Except.error e) →
    f (attempt + i) = Except.ok a →
    retryAux f m fa attempt gas =
      ⟨Except.ok a,
       (List.range' attempt i).map (fun j => (⌊m * fa ^ j⌋ : ℤ)),
       i + 1⟩ := by
  intro i
  induction i with
  | zero =>
    intro attempt gas hg _ hok
    obtain ⟨g, rfl⟩ : ∃ g, gas = g + 1 := ⟨gas - 1, by omega⟩
    simp only [Nat.add_zero] at hok
    simp [retryAux, hok, List.range']
  | succ n ih =>
    intro attempt gas hg hfail hok
    obtain ⟨g, rfl⟩ : ∃ g, gas = g + 1 := ⟨gas - 1, by omega⟩
    obtain ⟨e, he⟩ := hfail 0 (by omega)
    simp only [Nat.add_zero] at he
    have hgne : g ≠ 0 := by omega
    have step : retryAux f m fa (attempt + 1) g =
        ⟨Except.ok a,
         (List.range' (attempt + 1) n).map (fun j => (⌊m * fa ^ j⌋ : ℤ)),
         n + 1⟩ := by
      apply ih (attempt + 1) g (by omega)
      · intro k hk
        have := hfail (k + 1) (by omega)
        rwa [show attempt + (k + 1) = attempt + 1 + k by omega] at this
      · rwa [show attempt + (n + 1) = attempt + 1 + n by omega] at hok
    rw [retryAux_step f m fa attempt g e he hgne, step]
    simp [List.range'_succ]

/-! ### Lemmas about `segmentCuesAux` -/

theorem segmentCuesAux_spec (T TC : ℚ) :
    ∀ (ps : List String) (i : ℕ) (c : ℚ),
    (segmentCuesAux T TC ps i c).length = ps.length
    ∧ List.Forall₂ (fun (cue : PropCue) (p : String) =>
        cue.text = p ∧ cue.stop - cue.start = T * ((p.length : ℚ) / TC))
        (segmentCuesAux T TC ps i c) ps
    ∧ (∀ hd ∈ (segmentCuesAux T TC ps i c).head?, hd.start = c)
    ∧ (segmentCuesAux T TC ps i c).Chain' (fun a b => b.start = a.stop)
    ∧ ((segmentCuesAux T TC ps i c).map (fun cue => cue.stop - cue.start)).sum
        = T * ((((ps.map String.length).sum : ℕ) : ℚ) / TC) := by
  intro ps
  induction ps with
  | nil => intro i c; simp [segmentCuesAux]
  | cons p rest ih =>
    intro i c
    obtain ⟨ihlen, ihall, ihhead, ihchain, ihsum⟩ := ih (i + 1) (c + T * ((p.length : ℚ) / TC))
    refine ⟨by simp [segmentCuesAux, ihlen], ?_, ?_, ?_, ?_⟩
    · simp only [segmentCuesAux]
      exact List.Forall₂.cons ⟨rfl, by ring⟩ ihall
    · simp [segmentCuesAux]
    · simp only [segmentCuesAux]
      rw [List.chain'_cons']
      exact ⟨fun b hb => ihhead b hb, ihchain⟩
    · simp only [segmentCuesAux, List.map_cons, List.sum_cons, ihsum]
      push_cast
      ring

/-! ### Claim C8 — retry helper behaviour -/

/-- C8: the retry helper runs the operation at most `retries + 1` times;
    if attempt `i` is the first success the value is returned after exactly
    `i + 1` calls with sleeps `⌊minDelay·factor^j⌋` for `j < i`; if all
    attempts fail the error of the last attempt is raised after sleeps
    `⌊minDelay·factor^j⌋` for `j < retries`; with `retries = 3`,
    `minDelay = 100`, `factor = 2` a function failing all 4 attempts
    accumulates sleeps `[100, 200, 400]`. -/
theorem c8_retry (f : ℕ → Except String α) (retries : ℕ) (minDelay factor : ℚ) :
    (retry f retries minDelay factor).calls ≤ retries + 1
    ∧ (∀ i a, i ≤ retries → (∀ k, k < i → ∃ e, f k = Except.error e) →
        f i = Except.ok a →
        retry f retries minDelay factor =
          ⟨Except.ok a,
           (List.range i).map (fun j => (⌊minDelay * factor ^ j⌋ : ℤ)),
           i + 1⟩)
    ∧ ((∀ k, k ≤ retries → ∃ e, f k = Except.error e) →
        retry f retries minDelay factor =
          ⟨f retries,
           (List.range retries).map (fun j => (⌊minDelay * factor ^ j⌋ : ℤ)),
           retries + 1⟩)
    ∧ (retries = 3 → minDelay = 100 → factor = 2 →
        (∀ k, k ≤ retries → ∃ e, f k = Except.error e) →
        (retry f retries minDelay factor).sleeps = [100, 200, 400]) := by
  have hall : (∀ k, k ≤ retries → ∃ e, f k = Except.error e) →
      retry f retries minDelay factor =
        ⟨f retries,
         (List.range retries).map (fun j => (⌊minDelay * factor ^ j⌋ : ℤ)),
         retries + 1⟩ := by
    intro h
    have := retryAux_all_fail f minDelay factor retries 0
      (fun k hk => by simpa using h k (by omega))
    simpa [retry, List.range_eq_range'] using this
  refine ⟨retryAux_calls_le f minDelay factor (retries + 1) 0, ?_, hall, ?_⟩
  · intro i a hi hfail hok
    have := retryAux_success f minDelay factor a i 0 (retries + 1) (by omega)
      (fun k hk => by simpa using hfail k hk) (by simpa using hok)
    simpa [retry, List.range_eq_range'] using this
  · rintro rfl rfl rfl h
    rw [hall h]
    norm_num [List.range_succ]

/-- C8 witness: all four attempts of a always-failing operation are made,
    with sleeps 100, 200, 400 ms. -/
theorem c8_retry_witness :
    (retry (fun _ => (Except.error "boom" : Except String ℕ)) 3 100 2).sleeps
      = [100, 200, 400] :=
  (c8_retry (fun _ => (Except.error "boom" : Except String ℕ)) 3 100 2).2.2.2
    rfl rfl rfl (fun _ _ => ⟨"boom", rfl⟩)

/-! ### Claim C10 — proportional subtitle fallback -/

/-- C10: in algorithm B, each cue's duration is
    `totalSeconds · len(pᵢ) / Σ len(pⱼ)` (so durations are proportional to
    sentence lengths), the durations sum to exactly `totalSeconds` in exact
    arithmetic, the first cue starts at 0, and each cue's start equals the
    previous cue's stop. -/
theorem c10_proportional (parts : List String) (totalSeconds : ℚ)
    (hne : parts ≠ []) (hp : ∀ p ∈ parts, p ≠ "") (_hT : 0 < totalSeconds) :
    (segmentTranscriptToSrt parts totalSeconds).length = parts.length
    ∧ List.Forall₂ (fun (cue : PropCue) (p : String) =>
        cue.text = p ∧ cue.stop - cue.start
          = totalSeconds * ((p.length : ℚ) / (((parts.map String.length).sum : ℕ) : ℚ)))
        (segmentTranscriptToSrt parts totalSeconds) parts
    ∧ (∀ hd ∈ (segmentTranscriptToSrt parts totalSeconds).head?, hd.start = 0)
    ∧ (segmentTranscriptToSrt parts totalSeconds).Chain' (fun a b => b.start = a.stop)
    ∧ ((segmentTranscriptToSrt parts totalSeconds).map
        (fun cue => cue.stop - cue.start)).sum = totalSeconds := by
  have hTC : (0 : ℚ) < (((parts.map String.length).sum : ℕ) : ℚ) := by
    obtain ⟨p, rest, rfl⟩ : ∃ p rest, parts = p :: rest := by
      cases parts with
      | nil => exact absurd rfl hne
      | cons p rest => exact ⟨p, rest, rfl⟩
    have hp1 : p ≠ "" := hp p (by simp)
    have : 1 ≤ p.length := by
      cases hl : p.length with
      | zero =>
        refine absurd ?_ hp1
        cases p with
        | mk data =>
          have hnil : data = [] := List.length_eq_zero.mp hl
          subst hnil
          rfl
      | succ n => omega
    have : 1 ≤ (List.map String.length (p :: rest)).sum := by
      simp only [List.map_cons, List.sum_cons]
      omega
    exact_mod_cast Nat.lt_of_lt_of_le Nat.zero_lt_one this
  obtain ⟨hlen, hall, hhead, hchain, hsum⟩ :=
    segmentCuesAux_spec totalSeconds (((parts.map String.length).sum : ℕ) : ℚ) parts 0 0
  rw [segmentTranscriptToSrt, if_neg hne]
  refine ⟨hlen, hall, hhead, hchain, ?_⟩
  rw [hsum, div_self (ne_of_gt hTC), mul_one]

/-- C10 witness: two sentences of lengths 3 and 2 over 10 seconds give
    cues (0,6) and (6,10), whose durations sum to 10. -/
theorem c10_proportional_witness :
    ((segmentTranscriptToSrt ["ab.", "c!"] 10).map
      (fun cue => cue.stop - cue.start)).sum = 10 :=
  (c10_proportional ["ab.", "c!"] 10 (by decide) (by decide) (by norm_num)).2.2.2.2

/-! ### Claim C6 — TTS input / subtitle source selection -/

/-- C6 counterexample: with translated text `""` and transcript `"hello"`,
    the text passed to synthesize is `"hello"`, not the translated text,
    even though `""` does not begin with `"TRANSLATION error"`; so
    "equals the translated text iff it does not begin with
    TRANSLATION error" fails (JS also requires the translated text to be
    truthy, i.e. non-empty). -/
theorem c6_tts_counterexample :
    ¬ ((ttsInputFor "" "hello" = "") ↔ (jsStartsWith "" "TRANSLATION error" = false)) := by
  have h1 : ttsInputFor "" "hello" = "hello" := by
    rw [ttsInputFor, if_neg]
    intro hc
    exact hc.1 rfl
  have h2 : jsStartsWith "" "TRANSLATION error" = false := by decide
  intro h
  have := h.mpr h2
  rw [h1] at this
  exact absurd this (by decide)

/-- C6 amended: the text passed to synthesize equals the translated text
    iff the translated text is non-empty and does not begin with
    `"TRANSLATION error"`; otherwise it equals the transcript text.  The
    subtitle source text is chosen by the same rule. -/
theorem c6_tts_input (translated transcript : String) :
    ((translated ≠ "" ∧ ¬ jsStartsWith translated "TRANSLATION error") →
       ttsInputFor translated transcript = translated)
    ∧ ((translated = "" ∨ jsStartsWith translated "TRANSLATION error") →
       ttsInputFor translated transcript = transcript)
    ∧ srcTextFor translated transcript = ttsInputFor translated transcript := by
  refine ⟨fun h => ?_, fun h => ?_, rfl⟩
  · rw [ttsInputFor, if_pos h]
  · rw [ttsInputFor, if_neg]
    rcases h with h | h
    · exact fun hc => hc.1 h
    · exact fun hc => hc.2 h

/-- C6 witness: an error-sentinel translation falls back to the transcript
    text. -/
theorem c6_tts_input_witness :
    ttsInputFor "TRANSLATION error: x" "hello" = "hello" :=
  (c6_tts_input "TRANSLATION error: x" "hello").2.1 (Or.inr (by decide))

/-! ## ASR response normalizer (worker, normalizeAsrResponse)

    Dynamically-typed provider payloads are modelled by `JsVal`.  JS
    numbers are `num q` (finite) or `nan` (any non-finite value); the
    numeric result of `Number(...)` is `Option ℚ` with `none` = NaN. -/

inductive JsVal where
  | undef
  | null
  | bool (b : Bool)
  | num (q : ℚ)
  | nan
  | str (s : String)
  | arr (elems : List JsVal)
  | obj (fields : List (String × JsVal))
  deriving Repr

namespace JsVal

/-- JS truthiness. -/
def truthy : JsVal → Bool
  | undef => false
  | null => false
  | bool b => b
  | num q => decide (q ≠ 0)
  | nan => false
  | str s => decide (s ≠ "")
  | arr _ => true
  | obj _ => true

/-- Property read `v.k`: `undefined` on absent keys and non-objects. -/
def get (v : JsVal) (k : String) : JsVal :=
  match v with
  | obj fs =>
    match fs.find? (fun p => p.1 == k) with
    | some p => p.2
    | none => undef
  | _ => undef

def isStr : JsVal → Bool
  | str _ => true
  | _ => false

def isArr : JsVal → Bool
  | arr _ => true
  | _ => false

/-- `typeof v === 'number'` (true for NaN as well). -/
def isNumeric : JsVal → Bool
  | num _ => true
  | nan => true
  | _ => false

def asArr? : JsVal → Option (List JsVal)
  | arr xs => some xs
  | _ => none

end JsVal

/-- JS `a || b`. -/
def jsOr (a b : JsVal) : JsVal := if a.truthy then a else b

/-- JS `a && b`. -/
def jsAnd (a b : JsVal) : JsVal := if a.truthy then b else a

/-- JS element read `v[i]` on arrays; `undefined` otherwise. -/
def jsIndex (v : JsVal) (i : ℕ) : JsVal :=
  match v.asArr? with
  | some xs => xs.getD i JsVal.undef
  | none => JsVal.undef

/-- JS `Number(v)`; `none` = NaN.  String and array coercion is modelled:
    integer-literal strings parse, other non-trivial strings and
    multi-element arrays give NaN (JS would also parse decimal strings; no
    claim depends on that case). -/
def toNumber : JsVal → Option ℚ
  | JsVal.undef => none
  | JsVal.null => some 0
  | JsVal.bool b => some (if b then 1 else 0)
  | JsVal.num q => some q
  | JsVal.nan => none
  | JsVal.str s =>
    if s.trim = "" then some 0 else (s.trim.toInt?).map fun n => (n : ℚ)
  | JsVal.arr [] => some 0
  | JsVal.arr (_ :: _) => none
  | JsVal.obj _ => none

/-- Re-inject a numeric result as a JS value. -/
def numToJs : Option ℚ → JsVal
  | some q => JsVal.num q
  | none => JsVal.nan

/-- JS `+` on numbers (NaN-propagating). -/
def addN : Option ℚ → Option ℚ → Option ℚ
  | some x, some y => some (x + y)
  | _, _ => none

/-- JS `/` by a non-zero constant (NaN-propagating). -/
def divN : Option ℚ → ℚ → Option ℚ
  | some x, d => some (x / d)
  | none, _ => none

mutual
/-- JS `String(v)` (number formatting and nested-array stringification are
    modelled; no claim depends on their exact text). -/
def jsToString : JsVal → String
  | JsVal.undef => "undefined"
  | JsVal.null => "null"
  | JsVal.bool b => cond b "true" "false"
  | JsVal.num q => toString q
  | JsVal.nan => "NaN"
  | JsVal.str s => s
  | JsVal.arr xs => String.intercalate "," (jsArrElems xs)
  | JsVal.obj _ => "[object Object]"

/-- JS `Array.prototype.join(',')` element coercion: null/undefined
    become the empty string. -/
def jsArrElems : List JsVal → List String
  | [] => []
  | x :: rest =>
    (match x with
     | JsVal.undef => ""
     | JsVal.null => ""
     | y => jsToString y) :: jsArrElems rest
end

/-- Join-element coercion used by `.join(' ')` on segment texts. -/
def jsJoinElem : JsVal → String
  | JsVal.undef => ""
  | JsVal.null => ""
  | v => jsToString v

/-- Normalized segment `{text, start, end, words?}`.  `text` and `words`
    stay dynamic: Shape A passes `s.words` through verbatim and segment
    texts are not type-checked by the source. -/
structure NSeg where
  text : JsVal
  start : Option ℚ
  stop : Option ℚ
  words : JsVal
  deriving Repr

/-- Normalizer output `{text, segments}`. -/
structure NormResult where
  text : JsVal
  segments : List NSeg
  deriving Repr

/-- Shape A segment:
    `{text: s.text || '', start: Number(s.start || 0),
      end: Number(s.end || 0), words: s.words}`. -/
def mapSegA (s : JsVal) : NSeg :=
  { text := jsOr (s.get "text") (JsVal.str "")
    start := toNumber (jsOr (s.get "start") (JsVal.num 0))
    stop := toNumber (jsOr (s.get "end") (JsVal.num 0))
    words := s.get "words" }

/-- Shape B word:
    `{word: w.word || w.text || w.token,
      start: Number(w.start || w.startTime || 0),
      end: Number(w.end || w.endTime || 0)}`. -/
def mapWordB (w : JsVal) : JsVal :=
  JsVal.obj
    [("word", jsOr (w.get "word") (jsOr (w.get "text") (w.get "token"))),
     ("start", numToJs (toNumber
        (jsOr (w.get "start") (jsOr (w.get "startTime") (JsVal.num 0))))),
     ("end", numToJs (toNumber
        (jsOr (w.get "end") (jsOr (w.get "endTime") (JsVal.num 0)))))]

/-- Shape B segment:
    `text = s.text || s.transcript || ''`,
    `start = Number(s.start || s.begin || s.seek || 0)`,
    `end = Number(s.end || (s.start && s.duration
                             ? Number(s.start) + Number(s.duration) : 0))`,
    `words = Array.isArray(s.words) ? s.words.map(...) : undefined`. -/
def mapSegB (s : JsVal) : NSeg :=
  { text := jsOr (s.get "text") (jsOr (s.get "transcript") (JsVal.str ""))
    start := toNumber (jsOr (s.get "start")
      (jsOr (s.get "begin") (jsOr (s.get "seek") (JsVal.num 0))))
    stop := toNumber (jsOr (s.get "end")
      (if (jsAnd (s.get "start") (s.get "duration")).truthy
       then numToJs (addN (toNumber (s.get "start")) (toNumber (s.get "duration")))
       else JsVal.num 0))
    words :=
      match (s.get "words").asArr? with
      | some ws => JsVal.arr (ws.map mapWordB)
      | none => JsVal.undef }

/-- `segments.map(s => s.text).join(' ').trim()` (Shape B derived text). -/
def joinTexts (segs : List NSeg) : String :=
  (String.intercalate " " (segs.map (fun s => jsJoinElem s.text))).trim

/-- Shape C time field: Google `{seconds, nanos}` objects are converted
    via `seconds + nanos/1e9`; plain numbers (`typeof === 'number'`,
    including NaN) are taken as-is; anything else leaves the time at 0. -/
def timeOfC (t : JsVal) : Option ℚ :=
  if t.truthy ∧ (jsOr (t.get "seconds") (t.get "nanos")).truthy then
    addN (toNumber (jsOr (t.get "seconds") (JsVal.num 0)))
         (divN (toNumber (jsOr (t.get "nanos") (JsVal.num 0))) 1000000000)
  else if t.isNumeric then toNumber t
  else some 0

/-- A word collected in the Shape C pass: `{word, start, end}`. -/
structure CWord where
  word : JsVal
  start : Option ℚ
  stop : Option ℚ
  deriving Repr

/-- Words of `alt.words` (Shape C), if it is an array. -/
def altWordsC (alt : JsVal) : List CWord :=
  match (alt.get "words").asArr? with
  | some ws => ws.map (fun w =>
      ⟨w.get "word", timeOfC (w.get "startTime"), timeOfC (w.get "endTime")⟩)
  | none => []

/-- `if (alt.transcript) text += (text ? ' ' : '') + alt.transcript`. -/
def textStep (text : String) (alt : JsVal) : String :=
  if (alt.get "transcript").truthy
  then text ++ (if text ≠ "" then " " else "") ++ jsToString (alt.get "transcript")
  else text

/-- The `results.forEach` pass of the Shape C branch, accumulating the
    concatenated transcript and the flattened word list. -/
def googleFold : List JsVal → String → List CWord → String × List CWord
  | [], text, words => (text, words)
  | r :: rest, text, words =>
    let alts := r.get "alternatives"
    if alts.isArr ∧ (jsIndex alts 0).truthy then
      googleFold rest (textStep text (jsIndex alts 0))
        (words ++ altWordsC (jsIndex alts 0))
    else googleFold rest text words

/-- Dispatch on object payloads (Shapes A, B, C, and the stringify
    fallback), in source order. -/
def normalizeObj (v : JsVal) : NormResult :=
  if (v.get "text").isStr ∧ (v.get "segments").isArr then
    ⟨v.get "text", ((v.get "segments").asArr?.getD []).map mapSegA⟩
  else if (v.get "segments").isArr then
    ⟨if (v.get "text").truthy ∧ (v.get "text").isStr then v.get "text"
      else JsVal.str (joinTexts (((v.get "segments").asArr?.getD []).map mapSegB)),
     ((v.get "segments").asArr?.getD []).map mapSegB⟩
  else if (v.get "results").isArr then
    ⟨JsVal.str (googleFold ((v.get "results").asArr?.getD []) "" []).1.trim,
     (googleFold ((v.get "results").asArr?.getD []) "" []).2.map (fun w =>
       ⟨w.word, w.start, w.stop,
        JsVal.arr [JsVal.obj [("word", w.word), ("start", numToJs w.start),
                              ("end", numToJs w.stop)]]⟩)⟩
  else ⟨JsVal.str (jsToString v), []⟩

/-- `normalizeAsrResponse` (worker).  The source's falsy early return also
    catches empty strings, `0`, `false` and NaN payloads; string payloads
    are returned as the transcript text with no segments. -/
def normalizeAsrResponse (v : JsVal) : NormResult :=
  if v.truthy then
    if v.isStr then ⟨v, []⟩ else normalizeObj v
  else ⟨JsVal.str "", []⟩

/-! ### Schema predicates for the normalizer claims -/

/-- A finite, non-negative output time. -/
def okTime : Option ℚ → Bool
  | some q => decide (0 ≤ q)
  | none => false

/-- All segment-level start/end times of the output are finite and ≥ 0. -/
def NormResult.timesOk (r : NormResult) : Bool :=
  r.segments.all fun s => okTime s.start && okTime s.stop

/-- A payload value standing in a time position read through
    `Number(x || …)`: absent, `null`, falsy, or a non-negative finite
    number.  (Strings, objects and `true` in time positions can produce
    NaN or arbitrary values and are excluded.) -/
def timeFieldOk : JsVal → Bool
  | JsVal.undef => true
  | JsVal.null => true
  | JsVal.nan => true
  | JsVal.bool b => !b
  | JsVal.num q => decide (0 ≤ q)
  | JsVal.str _ => false
  | JsVal.arr _ => false
  | JsVal.obj _ => false

/-- A Shape C `startTime`/`endTime` value that yields a non-negative
    finite time: a non-negative number, a `{seconds, nanos}` object with
    clean fields, or any non-numeric value (which leaves the time at 0).
    NaN is excluded (`typeof NaN === 'number'`, so it is taken as-is). -/
def timeFieldOkC : JsVal → Bool
  | JsVal.num q => decide (0 ≤ q)
  | JsVal.nan => false
  | JsVal.obj fs =>
    timeFieldOk ((JsVal.obj fs).get "seconds")
      && timeFieldOk ((JsVal.obj fs).get "nanos")
  | _ => true

/-- Clean time fields of a Shape A segment. -/
def cleanSegA (s : JsVal) : Bool :=
  timeFieldOk (s.get "start") && timeFieldOk (s.get "end")

/-- Clean time fields of a Shape B segment. -/
def cleanSegB (s : JsVal) : Bool :=
  timeFieldOk (s.get "start") && timeFieldOk (s.get "begin")
    && timeFieldOk (s.get "seek") && timeFieldOk (s.get "end")
    && timeFieldOk (s.get "duration")

/-- Clean time fields of a Shape C result entry. -/
def cleanResultC (r : JsVal) : Bool :=
  !((r.get "alternatives").isArr && (jsIndex (r.get "alternatives") 0).truthy)
    || (((jsIndex (r.get "alternatives") 0).get "words").asArr?.getD []).all
         fun w => timeFieldOkC (w.get "startTime") && timeFieldOkC (w.get "endTime")

/-- Clean time fields of an object payload, following the dispatch of
    `normalizeObj`. -/
def cleanObj (w : JsVal) : Bool :=
  if (w.get "text").isStr ∧ (w.get "segments").isArr then
    ((w.get "segments").asArr?.getD []).all cleanSegA
  else if (w.get "segments").isArr then
    ((w.get "segments").asArr?.getD []).all cleanSegB
  else if (w.get "results").isArr then
    ((w.get "results").asArr?.getD []).all cleanResultC
  else true

/-- Clean time fields of an arbitrary payload, following the dispatch of
    `normalizeAsrResponse`. -/
def cleanPayload (v : JsVal) : Bool :=
  if v.truthy then
    if v.isStr then true else cleanObj v
  else true

/-! ### Lemmas about the normalizer -/

theorem toNumber_numToJs (o : Option ℚ) : toNumber (numToJs o) = o := by
  cases o <;> rfl

theorem truthy_jsAnd {a b : JsVal} (h : (jsAnd a b).truthy = true) :
    a.truthy = true ∧ b.truthy = true := by
  by_cases ha : a.truthy = true
  · refine ⟨ha, ?_⟩
    rwa [jsAnd, if_pos ha] at h
  · rw [jsAnd, if_neg ha] at h
    exact absurd h ha

theorem jsAnd_truthy_of {a b : JsVal} (ha : a.truthy = true)
    (hb : b.truthy = true) : (jsAnd a b).truthy = true := by
  rwa [jsAnd, if_pos ha]

theorem goodNum_jsOr (a b : JsVal) (ha : timeFieldOk a = true)
    (hb : ∃ q, toNumber b = some q ∧ 0 ≤ q) :
    ∃ q, toNumber (jsOr a b) = some q ∧ 0 ≤ q := by
  cases a with
  | undef => simpa [jsOr, JsVal.truthy] using hb
  | null => simpa [jsOr, JsVal.truthy] using hb
  | nan => simpa [jsOr, JsVal.truthy] using hb
  | bool bb =>
    cases bb with
    | false => simpa [jsOr, JsVal.truthy] using hb
    | true => simp [timeFieldOk] at ha
  | num q =>
    by_cases hq : q = 0
    · subst hq
      simpa [jsOr, JsVal.truthy] using hb
    · exact ⟨q, by simp [jsOr, JsVal.truthy, hq, toNumber],
        by simpa [timeFieldOk] using ha⟩
  | str s => simp [timeFieldOk] at ha
  | arr xs => simp [timeFieldOk] at ha
  | obj fs => simp [timeFieldOk] at ha

theorem num_of_truthy_timeFieldOk (a : JsVal) (ht : a.truthy = true)
    (ha : timeFieldOk a = true) : ∃ q, a = JsVal.num q ∧ 0 ≤ q := by
  cases a with
  | num q => exact ⟨q, rfl, by simpa [timeFieldOk] using ha⟩
  | bool bb => cases bb <;> simp_all [JsVal.truthy, timeFieldOk]
  | undef => simp [JsVal.truthy] at ht
  | null => simp [JsVal.truthy] at ht
  | nan => simp [JsVal.truthy] at ht
  | str s => simp [timeFieldOk] at ha
  | arr xs => simp [timeFieldOk] at ha
  | obj fs => simp [timeFieldOk] at ha

theorem okTime_eq_true_iff (o : Option ℚ) :
    okTime o = true ↔ ∃ q, o = some q ∧ 0 ≤ q := by
  cases o with
  | none => simp [okTime]
  | some q => simp [okTime]

theorem mapSegA_times (s : JsVal) (h : cleanSegA s = true) :
    okTime (mapSegA s).start = true ∧ okTime (mapSegA s).stop = true := by
  obtain ⟨h1, h2⟩ := Bool.and_eq_true_iff.mp h
  constructor
  · exact (okTime_eq_true_iff _).mpr
      (goodNum_jsOr _ _ h1 ⟨0, rfl, le_refl 0⟩)
  · exact (okTime_eq_true_iff _).mpr
      (goodNum_jsOr _ _ h2 ⟨0, rfl, le_refl 0⟩)

theorem mapSegB_times (s : JsVal) (h : cleanSegB s = true) :
    okTime (mapSegB s).start = true ∧ okTime (mapSegB s).stop = true := by
  simp only [cleanSegB, Bool.and_eq_true] at h
  obtain ⟨⟨⟨⟨h1, h2⟩, h3⟩, h4⟩, h5⟩ := h
  constructor
  · exact (okTime_eq_true_iff _).mpr
      (goodNum_jsOr _ _ h1 (goodNum_jsOr _ _ h2
        (goodNum_jsOr _ _ h3 ⟨0, rfl, le_refl 0⟩)))
  · refine (okTime_eq_true_iff _).mpr (goodNum_jsOr _ _ h4 ?_)
    by_cases hc : (jsAnd (s.get "start") (s.get "duration")).truthy = true
    · rw [if_pos hc]
      obtain ⟨hts, htd⟩ := truthy_jsAnd hc
      obtain ⟨q1, e1, n1⟩ := num_of_truthy_timeFieldOk _ hts h1
      obtain ⟨q2, e2, n2⟩ := num_of_truthy_timeFieldOk _ htd h5
      rw [e1, e2]
      exact ⟨q1 + q2, by simp [toNumber, addN, numToJs], add_nonneg n1 n2⟩
    · rw [if_neg hc]
      exact ⟨0, rfl, le_refl 0⟩

theorem timeOfC_good (t : JsVal) (h : timeFieldOkC t = true) :
    ∃ q, timeOfC t = some q ∧ 0 ≤ q := by
  cases t with
  | obj fs =>
    obtain ⟨hs, hn⟩ := Bool.and_eq_true_iff.mp (by simpa [timeFieldOkC] using h)
    rw [timeOfC]
    by_cases hc : (JsVal.obj fs).truthy = true
        ∧ (jsOr ((JsVal.obj fs).get "seconds") ((JsVal.obj fs).get "nanos")).truthy = true
    · rw [if_pos hc]
      obtain ⟨q1, e1, n1⟩ := goodNum_jsOr _ _ hs (⟨0, rfl, le_refl 0⟩ :
        ∃ q, toNumber (JsVal.num 0) = some q ∧ 0 ≤ q)
      obtain ⟨q2, e2, n2⟩ := goodNum_jsOr _ _ hn (⟨0, rfl, le_refl 0⟩ :
        ∃ q, toNumber (JsVal.num 0) = some q ∧ 0 ≤ q)
      rw [e1, e2]
      refine ⟨q1 + q2 / 1000000000, by simp [addN, divN], ?_⟩
      have : (0:ℚ) ≤ q2 / 1000000000 := by positivity
      linarith
    · rw [if_neg hc]
      simp only [JsVal.isNumeric, if_neg Bool.false_ne_true]
      exact ⟨0, rfl, le_refl 0⟩
  | num q =>
    rw [timeOfC, if_neg (by simp [JsVal.get, jsOr, JsVal.truthy])]
    simp only [JsVal.isNumeric, if_pos rfl]
    exact ⟨q, rfl, by simpa [timeFieldOkC] using h⟩
  | nan => simp [timeFieldOkC] at h
  | undef =>
    rw [timeOfC, if_neg (by simp [JsVal.truthy])]
    exact ⟨0, by simp [JsVal.isNumeric], le_refl 0⟩
  | null =>
    rw [timeOfC, if_neg (by simp [JsVal.truthy])]
    exact ⟨0, by simp [JsVal.isNumeric], le_refl 0⟩
  | bool bb =>
    rw [timeOfC, if_neg (by simp [JsVal.get, jsOr, JsVal.truthy])]
    exact ⟨0, by simp [JsVal.isNumeric], le_refl 0⟩
  | str s =>
    rw [timeOfC, if_neg (by simp [JsVal.get, jsOr, JsVal.truthy])]
    exact ⟨0, by simp [JsVal.isNumeric], le_refl 0⟩
  | arr xs =>
    rw [timeOfC, if_neg (by simp [JsVal.get, jsOr, JsVal.truthy])]
    exact ⟨0, by simp [JsVal.isNumeric], le_refl 0⟩

/-- Goodness of a collected Shape C word. -/
def goodCW (w : CWord) : Prop :=
  (∃ q, w.start = some q ∧ 0 ≤ q) ∧ (∃ q, w.stop = some q ∧ 0 ≤ q)

theorem altWordsC_good (alt : JsVal)
    (h : ((alt.get "words").asArr?.getD []).all
      (fun w => timeFieldOkC (w.get "startTime")
        && timeFieldOkC (w.get "endTime")) = true) :
    ∀ w ∈ altWordsC alt, goodCW w := by
  intro w hw
  rw [altWordsC] at hw
  cases harr : (alt.get "words").asArr? with
  | none => rw [harr] at hw; simp at hw
  | some ws =>
    rw [harr] at hw h
    simp only [Option.getD_some] at h
    obtain ⟨w0, hw0, rfl⟩ := List.mem_map.mp hw
    have := List.all_eq_true.mp h w0 hw0
    obtain ⟨ha, hb⟩ := Bool.and_eq_true_iff.mp this
    exact ⟨timeOfC_good _ ha, timeOfC_good _ hb⟩

theorem googleFold_words_good (rs : List JsVal) :
    ∀ (text : String) (ws : List CWord),
    (∀ w ∈ ws, goodCW w) → rs.all cleanResultC = true →
    ∀ w ∈ (googleFold rs text ws).2, goodCW w := by
  induction rs with
  | nil => intro text ws hws _ w hw; exact hws w hw
  | cons r rest ih =>
    intro text ws hws hclean w hw
    rw [List.all_cons] at hclean
    obtain ⟨hr, hrest⟩ := Bool.and_eq_true_iff.mp hclean
    rw [googleFold] at hw
    by_cases hc : (r.get "alternatives").isArr = true
        ∧ (jsIndex (r.get "alternatives") 0).truthy = true
    · rw [if_pos hc] at hw
      refine ih _ _ ?_ hrest w hw
      intro w' hw'
      rcases List.mem_append.mp hw' with h' | h'
      · exact hws w' h'
      · refine altWordsC_good _ ?_ w' h'
        have hcb : ((r.get "alternatives").isArr
            && (jsIndex (r.get "alternatives") 0).truthy) = true := by
          rw [hc.1, hc.2]; rfl
        simpa [cleanResultC, hcb] using hr
    · rw [if_neg hc] at hw
      exact ih _ _ hws hrest w hw

theorem normalizeObj_text_isStr (w : JsVal) :
    (normalizeObj w).text.isStr = true := by
  rw [normalizeObj]
  by_cases h1 : (w.get "text").isStr = true ∧ (w.get "segments").isArr = true
  · rw [if_pos h1]; exact h1.1
  · rw [if_neg h1]
    by_cases h2 : (w.get "segments").isArr = true
    · rw [if_pos h2]
      by_cases hc : (w.get "text").truthy = true ∧ (w.get "text").isStr = true
      · rw [if_pos hc]; exact hc.2
      · rw [if_neg hc]; rfl
    · rw [if_neg h2]
      by_cases h3 : (w.get "results").isArr = true
      · rw [if_pos h3]; rfl
      · rw [if_neg h3]; rfl

theorem normalizeObj_timesOk (w : JsVal) (h : cleanObj w = true) :
    (normalizeObj w).timesOk = true := by
  rw [normalizeObj]; rw [cleanObj] at h
  by_cases h1 : (w.get "text").isStr = true ∧ (w.get "segments").isArr = true
  · rw [if_pos h1]; rw [if_pos h1] at h
    simp only [NormResult.timesOk]
    rw [List.all_eq_true]
    intro s hs
    obtain ⟨s0, hs0, rfl⟩ := List.mem_map.mp hs
    obtain ⟨ha, hb⟩ := mapSegA_times s0 (List.all_eq_true.mp h s0 hs0)
    simp [ha, hb]
  · rw [if_neg h1]; rw [if_neg h1] at h
    by_cases h2 : (w.get "segments").isArr = true
    · rw [if_pos h2]; rw [if_pos h2] at h
      simp only [NormResult.timesOk]
      rw [List.all_eq_true]
      intro s hs
      obtain ⟨s0, hs0, rfl⟩ := List.mem_map.mp hs
      obtain ⟨ha, hb⟩ := mapSegB_times s0 (List.all_eq_true.mp h s0 hs0)
      simp [ha, hb]
    · rw [if_neg h2]; rw [if_neg h2] at h
      by_cases h3 : (w.get "results").isArr = true
      · rw [if_pos h3]; rw [if_pos h3] at h
        simp only [NormResult.timesOk]
        rw [List.all_eq_true]
        intro s hs
        obtain ⟨cw, hcw, rfl⟩ := List.mem_map.mp hs
        obtain ⟨⟨q1, e1, n1⟩, ⟨q2, e2, n2⟩⟩ :=
          googleFold_words_good ((w.get "results").asArr?.getD []) "" []
            (by intro x hx; simp at hx) h cw hcw
        simp [okTime, e1, e2, n1, n2]
      · rw [if_neg h3]; rfl

theorem normalize_text_isStr (v : JsVal) :
    (normalizeAsrResponse v).text.isStr = true := by
  rw [normalizeAsrResponse]
  by_cases hv : v.truthy = true
  · rw [if_pos hv]
    by_cases hs : v.isStr = true
    · rw [if_pos hs]; exact hs
    · rw [if_neg hs]; exact normalizeObj_text_isStr v
  · rw [if_neg hv]; rfl

theorem normalize_timesOk (v : JsVal) (h : cleanPayload v = true) :
    (normalizeAsrResponse v).timesOk = true := by
  rw [normalizeAsrResponse]; rw [cleanPayload] at h
  by_cases hv : v.truthy = true
  · rw [if_pos hv]; rw [if_pos hv] at h
    by_cases hs : v.isStr = true
    · rw [if_pos hs]; rfl
    · rw [if_neg hs]; rw [if_neg hs] at h
      exact normalizeObj_timesOk v h
  · rw [if_neg hv]; rfl

/-! ## Worker pipeline model (worker processor, lines 159-449)

    One job execution as a pure function of the outcomes of its external
    calls.  `Env` fixes those outcomes: the ffmpeg progress events and
    extract result, the enhance/ASR/translate/TTS outcomes, the probe
    results, and the merge command result.  The run records the progress
    reports (in order), the written stem-keyed files, the stage decisions
    and the returned result mapping.  Modelling assumptions, each noted at
    its use: filesystem writes succeed; a failed external stage leaves no
    output artifact; no stale stem files predate the run; the ffmpeg merge
    emits its start event before failing, and it fails when its TTS input
    file is missing. -/

/-- Stem-keyed files the worker can create.  (`mergeMode` and the TTS
    duration probe only shape the ffmpeg filter string, which no claim
    observes, so they are not tracked.) -/
inductive Artifact where
  | audioWav | audioEnhanced | transcriptJson | transcriptTxt | translatedTxt
  | ttsMp3 | ttsErrTxt | enhanceErrTxt | mergeErrTxt | mergeSkipTxt
  | srtFile | dubbedMp4
  deriving DecidableEq, Repr

/-- Outcomes of the external calls of one job execution. -/
structure Env where
  srcExists : Bool
  extractPercents : List ℚ
  extractOk : Bool
  envEnhance : Bool
  jobEnhance : Bool
  enhanceOk : Bool
  asr : Except String JsVal
  translateRes : Except String String
  ttsOk : Bool
  probeVideo : Except String Bool
  probeDur : Except String ℚ
  burnSubtitles : Bool
  mergeCmdOk : Bool
  originalname : String
  timestamp : String
  deriving Repr

/-- `result` object of the worker (line 446-447): the four fixed artifact
    paths, `dubbed` iff created, and `enhancedAudio` iff the enhanced file
    exists on disk at finalize time. -/
structure ResultMap where
  audio : Artifact
  transcript : Artifact
  translated : Artifact
  tts : Artifact
  dubbed : Option Artifact
  enhancedAudio : Option Artifact
  deriving DecidableEq, Repr

/-- Observable outcome of one job execution. -/
structure Run where
  trace : List ℤ
  failed : Option String
  disk : List Artifact
  transcriptText : String
  transcriptFileContent : String
  translatedText : String
  ttsInput : Option String
  translateCalled : Bool
  ttsCalled : Bool
  mergeAttempted : Bool
  dubbedCreated : Bool
  result : Option ResultMap
  deriving Repr

/-- Extract-stage progress reports:
    `p = min(20, floor(percent/5))`, reported when `p > lastProgress`. -/
def extractReportsAux : List ℚ → ℤ → List ℤ
  | [], _ => []
  | percent :: rest, last =>
    if last < min 20 ⌊percent / 5⌋ then
      min 20 ⌊percent / 5⌋ :: extractReportsAux rest (min 20 ⌊percent / 5⌋)
    else
      extractReportsAux rest last

def extractReports (ps : List ℚ) : List ℤ := extractReportsAux ps 0

/-- A failed run (fatal stages: missing source, extract error). -/
def failedRun (msg : String) (trace : List ℤ) : Run :=
  { trace := trace, failed := some msg, disk := [], transcriptText := "",
    transcriptFileContent := "", translatedText := "", ttsInput := none,
    translateCalled := false, ttsCalled := false, mergeAttempted := false,
    dubbedCreated := false, result := none }

/-- `enhanceFlag` (line 190). -/
def enhanceFlagOf (env : Env) : Bool := env.envEnhance || env.jobEnhance

/-- Enhance-stage progress reports: 15, then 20 on success (193-204). -/
def enhanceTrace (env : Env) : List ℤ :=
  if enhanceFlagOf env then (if env.enhanceOk then [15, 20] else [15]) else []

/-- Enhance-stage files: the enhanced WAV, or the error marker (196-201). -/
def enhanceDisk (env : Env) : List Artifact :=
  if enhanceFlagOf env then
    (if env.enhanceOk then [Artifact.audioEnhanced]
     else [Artifact.enhanceErrTxt])
  else []

/-- `transcriptText` (lines 210-219): on success, `norm.text ||` the
    joined segment texts; on a throw, the tolerated error string. -/
def transcriptTextOf (env : Env) : String :=
  match env.asr with
  | Except.ok payload =>
    if (normalizeAsrResponse payload).text.truthy then
      jsToString (normalizeAsrResponse payload).text
    else joinTexts (normalizeAsrResponse payload).segments
  | Except.error msg => "ASR error: " ++ msg

/-- The structured-JSON sidecar, written only when ASR succeeded (216). -/
def transcriptDisk (env : Env) : List Artifact :=
  match env.asr with
  | Except.ok _ => [Artifact.transcriptJson]
  | Except.error _ => []

/-- `transcriptFull` (line 220). -/
def transcriptFullOf (env : Env) : String :=
  "TRANSCRIPT\nSource: " ++ env.originalname ++ "\nGenerated at: "
    ++ env.timestamp ++ "\n\n" ++ transcriptTextOf env ++ "\n"

/-- `translatedText` (lines 225-232). -/
def translatedTextOf (env : Env) : String :=
  match env.translateRes with
  | Except.ok t => t
  | Except.error msg => "TRANSLATION error: " ++ msg

/-- Synthesize-stage progress after the unconditional 55: 85 on success. -/
def ttsTrace (env : Env) : List ℤ := if env.ttsOk then [85] else []

/-- Synthesize-stage files: the MP3, or the error marker (243-248). -/
def ttsDisk (env : Env) : List Artifact :=
  if env.ttsOk then [Artifact.ttsMp3] else [Artifact.ttsErrTxt]

/-- Merge stage (lines 317-442): progress reports, files written, whether
    the ffmpeg merge command was run, and whether the dub was created.
    A probe failure or duration-probe failure is caught with the merge
    error marker; an audio-only input writes the skip marker and reports
    95; otherwise the SRT is written when burning and the merge command
    runs (start event reports 90), succeeding only when the TTS input file
    exists and the command itself succeeds. -/
def mergeStage (env : Env) : List ℤ × List Artifact × Bool × Bool :=
  match env.probeVideo with
  | Except.error _ => ([], [Artifact.mergeErrTxt], false, false)
  | Except.ok false => ([95], [Artifact.mergeSkipTxt], false, false)
  | Except.ok true =>
    match env.probeDur with
    | Except.error _ => ([], [Artifact.mergeErrTxt], false, false)
    | Except.ok _ =>
      if env.ttsOk = true ∧ env.mergeCmdOk = true then
        ([90, 95], (if env.burnSubtitles then [Artifact.srtFile] else [])
          ++ [Artifact.dubbedMp4], true, true)
      else
        ([90], (if env.burnSubtitles then [Artifact.srtFile] else [])
          ++ [Artifact.mergeErrTxt], true, false)

/-- The files on disk after a non-fatal run. -/
def diskOf (env : Env) : List Artifact :=
  [Artifact.audioWav] ++ enhanceDisk env ++ transcriptDisk env
    ++ [Artifact.transcriptTxt, Artifact.translatedTxt] ++ ttsDisk env
    ++ (mergeStage env).2.1

/-- The progress reports of a non-fatal run, in order. -/
def traceOf (env : Env) : List ℤ :=
  extractReports env.extractPercents ++ enhanceTrace env ++ [25, 45, 55]
    ++ ttsTrace env ++ (mergeStage env).1 ++ [100]

/-- A run that passed the fatal stages (source present, extract ok). -/
def successRun (env : Env) : Run :=
  { trace := traceOf env
    failed := none
    disk := diskOf env
    transcriptText := transcriptTextOf env
    transcriptFileContent := transcriptFullOf env
    translatedText := translatedTextOf env
    ttsInput := some (ttsInputFor (translatedTextOf env) (transcriptTextOf env))
    translateCalled := true
    ttsCalled := true
    mergeAttempted := (mergeStage env).2.2.1
    dubbedCreated := (mergeStage env).2.2.2
    result := some
      { audio := Artifact.audioWav
        transcript := Artifact.transcriptTxt
        translated := Artifact.translatedTxt
        tts := Artifact.ttsMp3
        dubbed := if (mergeStage env).2.2.2 then some Artifact.dubbedMp4
          else none
        enhancedAudio := if Artifact.audioEnhanced ∈ diskOf env
          then some Artifact.audioEnhanced else none } }

/-- One execution of the worker processor. -/
def processJob (env : Env) : Run :=
  if env.srcExists = false then failedRun "source file not found" []
  else if env.extractOk = false then
    failedRun "extract error" (extractReports env.extractPercents)
  else successRun env

/-- A happy-path environment, the base of the concrete runs below. -/
def envBase : Env :=
  { srcExists := true, extractPercents := [100], extractOk := true,
    envEnhance := false, jobEnhance := false, enhanceOk := true,
    asr := Except.ok (JsVal.str "hello"), translateRes := Except.ok "halo",
    ttsOk := true, probeVideo := Except.ok true, probeDur := Except.ok 10,
    burnSubtitles := false, mergeCmdOk := true,
    originalname := "in.mp4", timestamp := "2024-01-01T00:00:00.000Z" }

/-! ### Lemmas about the pipeline model -/

theorem processJob_success (env : Env) (hsrc : env.srcExists = true)
    (hex : env.extractOk = true) : processJob env = successRun env := by
  rw [processJob, if_neg (by simp [hsrc]), if_neg (by simp [hex])]

theorem chain_le_append {xs ys : List ℤ} (hx : xs.Chain' (· ≤ ·))
    (hy : ys.Chain' (· ≤ ·))
    (hb : ∀ x ∈ xs.getLast?, ∀ y ∈ ys.head?, x ≤ y) :
    (xs ++ ys).Chain' (· ≤ ·) :=
  List.chain'_append.mpr ⟨hx, hy, hb⟩

theorem boundary_of_bounds {xs ys : List ℤ} {K : ℤ}
    (hx : ∀ x ∈ xs, x ≤ K) (hy : ∀ y ∈ ys.head?, K ≤ y) :
    ∀ x ∈ xs.getLast?, ∀ y ∈ ys.head?, x ≤ y :=
  fun x hxl y hyh =>
    le_trans (hx x (List.mem_of_mem_getLast? hxl)) (hy y hyh)

theorem extractReportsAux_spec :
    ∀ (ps : List ℚ) (last : ℤ),
    (extractReportsAux ps last).Chain' (· ≤ ·)
    ∧ ∀ p ∈ extractReportsAux ps last, last < p ∧ p ≤ 20 := by
  intro ps
  induction ps with
  | nil =>
    intro last
    exact ⟨List.chain'_nil, by simp [extractReportsAux]⟩
  | cons percent rest ih =>
    intro last
    rw [extractReportsAux]
    by_cases h : last < min 20 ⌊percent / 5⌋
    · rw [if_pos h]
      obtain ⟨ihc, ihb⟩ := ih (min 20 ⌊percent / 5⌋)
      constructor
      · rw [List.chain'_cons']
        exact ⟨fun y hy =>
          le_of_lt (ihb y (List.mem_of_mem_head? hy)).1, ihc⟩
      · intro p hp
        simp only [List.mem_cons] at hp
        rcases hp with rfl | hp
        · exact ⟨h, min_le_left 20 _⟩
        · exact ⟨lt_trans h (ihb p hp).1, (ihb p hp).2⟩
    · rw [if_neg h]
      exact ih last

/-- The monotone-trace core: the full report list chains as soon as every
    extract report is at most the first later marker (25 without enhance,
    15 with it). -/
theorem traceOf_chain (env : Env)
    (h : enhanceFlagOf env = false
      ∨ ∀ p ∈ extractReports env.extractPercents, p ≤ 15) :
    (traceOf env).Chain' (· ≤ ·) := by
  obtain ⟨hc1, hb1⟩ := extractReportsAux_spec env.extractPercents 0
  have hb20 : ∀ p ∈ extractReports env.extractPercents, p ≤ 20 :=
    fun p hp => (hb1 p hp).2
  have hrest : ∀ (B : ℤ), (∀ p ∈ extractReports env.extractPercents, p ≤ B) →
      (∀ y ∈ (enhanceTrace env ++ ([25, 45, 55] ++ (ttsTrace env
        ++ ((mergeStage env).1 ++ [100])))).head?, B ≤ y) →
      (enhanceTrace env ++ ([25, 45, 55] ++ (ttsTrace env
        ++ ((mergeStage env).1 ++ [100])))).Chain' (· ≤ ·) →
      (traceOf env).Chain' (· ≤ ·) := by
    intro B hB hhead hchain
    rw [traceOf]
    simp only [List.append_assoc]
    exact chain_le_append hc1 hchain (boundary_of_bounds hB hhead)
  have htts : ttsTrace env = [] ∨ ttsTrace env = [85] := by
    rw [ttsTrace]
    by_cases hq : env.ttsOk = true
    · right; rw [if_pos hq]
    · left; rw [if_neg hq]
  have hmrg : (mergeStage env).1 = [] ∨ (mergeStage env).1 = [95]
      ∨ (mergeStage env).1 = [90, 95] ∨ (mergeStage env).1 = [90] := by
    rw [mergeStage]
    rcases env.probeVideo with e | b
    · simp
    · cases b
      · simp
      · rcases env.probeDur with e | d
        · simp
        · by_cases hq : env.ttsOk = true ∧ env.mergeCmdOk = true
          · simp [hq]
          · simp [hq]
  have htail : ∀ front : List ℤ, front = [] ∨ front = [15] ∨ front = [15, 20] →
      (front ++ ([25, 45, 55] ++ (ttsTrace env
        ++ ((mergeStage env).1 ++ [100])))).Chain' (· ≤ ·) := by
    intro front hfront
    rcases hfront with rfl | rfl | rfl <;>
      rcases htts with h2 | h2 <;> rw [h2] <;>
      rcases hmrg with h3 | h3 | h3 | h3 <;> rw [h3] <;>
      simp [List.chain'_cons, List.chain'_singleton]
  rcases h with h | h
  · have henh : enhanceTrace env = [] := by rw [enhanceTrace, h]; rfl
    refine hrest 20 hb20 ?_ ?_
    · rw [henh]
      intro y hy
      simp at hy
      omega
    · rw [henh]
      exact htail [] (Or.inl rfl)
  · have henh : enhanceTrace env = [] ∨ enhanceTrace env = [15]
        ∨ enhanceTrace env = [15, 20] := by
      rw [enhanceTrace]
      by_cases hf : enhanceFlagOf env = true
      · by_cases ho : env.enhanceOk = true
        · right; right; rw [if_pos hf, if_pos ho]
        · right; left; rw [if_pos hf, if_neg ho]
      · left; rw [if_neg hf]
    refine hrest 15 h ?_ (htail (enhanceTrace env) henh)
    rcases henh with h4 | h4 | h4 <;> rw [h4] <;> intro y hy <;> simp at hy <;> omega

theorem mergeStage_disk_subset (env : Env) : ∀ a ∈ (mergeStage env).2.1,
    a = Artifact.mergeErrTxt ∨ a = Artifact.mergeSkipTxt
      ∨ a = Artifact.srtFile ∨ a = Artifact.dubbedMp4 := by
  rw [mergeStage]
  rcases env.probeVideo with e | b
  · simp
  · cases b
    · simp
    · rcases env.probeDur with e | d
      · simp
      · by_cases hc : env.ttsOk = true ∧ env.mergeCmdOk = true
        · rw [if_pos hc]
          by_cases hb : env.burnSubtitles = true <;> simp [hb]
        · rw [if_neg hc]
          by_cases hb : env.burnSubtitles = true <;> simp [hb]

theorem mergeStage_no_tts (env : Env) (htts : env.ttsOk = false) :
    (mergeStage env).2.2.2 = false
    ∧ Artifact.dubbedMp4 ∉ (mergeStage env).2.1
    ∧ (env.probeVideo = Except.ok true → ∀ d, env.probeDur = Except.ok d →
        (mergeStage env).2.2.1 = true
        ∧ Artifact.mergeErrTxt ∈ (mergeStage env).2.1) := by
  rw [mergeStage]
  rcases env.probeVideo with e | b
  · simp
  · cases b
    · simp
    · rcases env.probeDur with e | d
      · simp
      · have hcond : ¬ (env.ttsOk = true ∧ env.mergeCmdOk = true) := by
          rintro ⟨h1, _⟩
          rw [htts] at h1
          exact Bool.false_ne_true h1
        rw [if_neg hcond]
        refine ⟨rfl, ?_, ?_⟩
        · by_cases hb : env.burnSubtitles = true <;> simp [hb]
        · intro _ _ _
          refine ⟨rfl, ?_⟩
          by_cases hb : env.burnSubtitles = true <;> simp [hb]

theorem mergeStage_attempted (env : Env) (hv : env.probeVideo = Except.ok true)
    (d : ℚ) (hd : env.probeDur = Except.ok d) :
    (mergeStage env).2.2.1 = true := by
  rw [mergeStage, hv, hd]
  by_cases hc : env.ttsOk = true ∧ env.mergeCmdOk = true
  · rw [if_pos hc]
  · rw [if_neg hc]

theorem mergeStage_dub (env : Env) (h : (mergeStage env).2.2.2 = true) :
    Artifact.dubbedMp4 ∈ (mergeStage env).2.1 := by
  rw [mergeStage] at h ⊢
  rcases hpv : env.probeVideo with e | b <;> rw [hpv] at h
  · simp at h
  · cases b
    · simp at h
    · rcases hpd : env.probeDur with e | d <;> rw [hpd] at h
      · simp at h
      · by_cases hc : env.ttsOk = true ∧ env.mergeCmdOk = true
        · rw [if_pos hc]
          by_cases hb : env.burnSubtitles = true <;> simp [hb]
        · rw [if_neg hc] at h
          simp at h

theorem not_mem_enhanceDisk (env : Env) (a : Artifact)
    (h1 : a ≠ Artifact.audioEnhanced) (h2 : a ≠ Artifact.enhanceErrTxt) :
    a ∉ enhanceDisk env := by
  rw [enhanceDisk]
  by_cases hf : enhanceFlagOf env = true
  · by_cases ho : env.enhanceOk = true <;> simp [hf, ho, h1, h2]
  · simp [hf]

theorem audioEnhanced_enhanceDisk (env : Env) :
    Artifact.audioEnhanced ∈ enhanceDisk env
      ↔ enhanceFlagOf env = true ∧ env.enhanceOk = true := by
  rw [enhanceDisk]
  by_cases hf : enhanceFlagOf env = true
  · by_cases ho : env.enhanceOk = true <;> simp [hf, ho]
  · simp [hf]

theorem not_mem_transcriptDisk (env : Env) (a : Artifact)
    (h : a ≠ Artifact.transcriptJson) : a ∉ transcriptDisk env := by
  rw [transcriptDisk]
  rcases env.asr with e | p <;> simp [h]

theorem not_mem_ttsDisk (env : Env) (a : Artifact)
    (h1 : a ≠ Artifact.ttsMp3) (h2 : a ≠ Artifact.ttsErrTxt) :
    a ∉ ttsDisk env := by
  rw [ttsDisk]
  by_cases ht : env.ttsOk = true <;> simp [ht, h1, h2]

theorem ttsMp3_ttsDisk (env : Env) :
    Artifact.ttsMp3 ∈ ttsDisk env ↔ env.ttsOk = true := by
  rw [ttsDisk]
  by_cases ht : env.ttsOk = true <;> simp [ht]

theorem not_mem_mergeDisk (env : Env) (a : Artifact)
    (h1 : a ≠ Artifact.mergeErrTxt) (h2 : a ≠ Artifact.mergeSkipTxt)
    (h3 : a ≠ Artifact.srtFile) (h4 : a ≠ Artifact.dubbedMp4) :
    a ∉ (mergeStage env).2.1 := by
  intro hmem
  rcases mergeStage_disk_subset env a hmem with h | h | h | h
  exacts [h1 h, h2 h, h3 h, h4 h]

theorem ttsMp3_mem_diskOf (env : Env) :
    Artifact.ttsMp3 ∈ diskOf env ↔ env.ttsOk = true := by
  rw [diskOf]
  simp only [List.mem_append]
  constructor
  · rintro (((((h | h) | h) | h) | h) | h)
    · simp at h
    · exact absurd h (not_mem_enhanceDisk env _ (by decide) (by decide))
    · exact absurd h (not_mem_transcriptDisk env _ (by decide))
    · simp at h
    · exact (ttsMp3_ttsDisk env).mp h
    · exact absurd h (not_mem_mergeDisk env _ (by decide) (by decide)
        (by decide) (by decide))
  · intro h
    exact Or.inl (Or.inr ((ttsMp3_ttsDisk env).mpr h))

theorem audioEnhanced_mem_diskOf (env : Env) :
    Artifact.audioEnhanced ∈ diskOf env
      ↔ enhanceFlagOf env = true ∧ env.enhanceOk = true := by
  rw [diskOf]
  simp only [List.mem_append]
  constructor
  · rintro (((((h | h) | h) | h) | h) | h)
    · simp at h
    · exact (audioEnhanced_enhanceDisk env).mp h
    · exact absurd h (not_mem_transcriptDisk env _ (by decide))
    · simp at h
    · exact absurd h (not_mem_ttsDisk env _ (by decide) (by decide))
    · exact absurd h (not_mem_mergeDisk env _ (by decide) (by decide)
        (by decide) (by decide))
  · intro h
    exact Or.inl (Or.inl (Or.inl (Or.inl
      (Or.inr ((audioEnhanced_enhanceDisk env).mpr h)))))

theorem dubbedMp4_not_mem_diskOf_of_no_tts (env : Env)
    (htts : env.ttsOk = false) : Artifact.dubbedMp4 ∉ diskOf env := by
  rw [diskOf]
  simp only [List.mem_append]
  rintro (((((h | h) | h) | h) | h) | h)
  · simp at h
  · exact not_mem_enhanceDisk env _ (by decide) (by decide) h
  · exact not_mem_transcriptDisk env _ (by decide) h
  · simp at h
  · exact not_mem_ttsDisk env _ (by decide) (by decide) h
  · exact (mergeStage_no_tts env htts).2.1 h

/-! ### Claim C1 — progress monotonicity -/

/-- C1 counterexample: with the enhance flag enabled and the extract stage
    streaming to 20 (percent 100), the reported sequence is
    20, 15, 20, 25, … — the enhance-start marker 15 drops below the last
    extract report, so the sequence is not monotone. -/
theorem c1_progress_counterexample :
    (processJob { envBase with envEnhance := true }).trace
      = [20, 15, 20, 25, 45, 55, 85, 90, 95, 100]
    ∧ ¬ (processJob { envBase with envEnhance := true }).trace.Chain'
        (· ≤ ·) := by
  have hfl : (⌊(100:ℚ)/5⌋ : ℤ) = 20 := by norm_num
  have hxr : extractReports [(100 : ℚ)] = [20] := by
    rw [extractReports, extractReportsAux, hfl]
    norm_num [extractReportsAux]
  have ht : (processJob { envBase with envEnhance := true }).trace
      = [20, 15, 20, 25, 45, 55, 85, 90, 95, 100] := by
    rw [processJob_success _ rfl rfl]
    show traceOf _ = _
    rw [traceOf]
    have hxp : ({ envBase with envEnhance := true } : Env).extractPercents
        = [(100 : ℚ)] := rfl
    rw [hxp, hxr]
    norm_num [enhanceTrace, enhanceFlagOf, ttsTrace, mergeStage, envBase]
  refine ⟨ht, fun h => ?_⟩
  rw [ht, List.chain'_cons] at h
  exact absurd h.1 (by norm_num)

/-- C1 amended: a completed execution's last progress report is 100; and
    the report sequence is monotone non-decreasing whenever the enhance
    stage is disabled, or every extract-stage report stays at or below 15
    (the enhance-start marker).  With enhance enabled and an extract
    report above 15, the marker 15 may decrease the sequence. -/
theorem c1_progress (env : Env) :
    ((processJob env).failed = none →
      (processJob env).trace.getLast? = some 100)
    ∧ ((enhanceFlagOf env = false
        ∨ ∀ p ∈ extractReports env.extractPercents, p ≤ 15) →
      (processJob env).trace.Chain' (· ≤ ·)) := by
  rw [processJob]
  by_cases hsrc : env.srcExists = false
  · rw [if_pos hsrc]
    exact ⟨fun h => by simp [failedRun] at h, fun _ => by simp [failedRun]⟩
  · rw [if_neg hsrc]
    by_cases hex : env.extractOk = false
    · rw [if_pos hex]
      refine ⟨fun h => by simp [failedRun] at h, fun _ => ?_⟩
      show (extractReports env.extractPercents).Chain' (· ≤ ·)
      exact (extractReportsAux_spec env.extractPercents 0).1
    · rw [if_neg hex]
      refine ⟨fun _ => ?_, fun h => traceOf_chain env h⟩
      show (traceOf env).getLast? = some 100
      rw [traceOf]
      exact List.getLast?_concat _

/-- C1 witness: the happy-path run (enhance off) reports monotonically,
    ending at 100. -/
theorem c1_progress_witness :
    (processJob envBase).trace.Chain' (· ≤ ·) :=
  (c1_progress envBase).2 (Or.inl rfl)

/-! ### Claim C2 — synthesize failure and the merge stage -/

/-- C2 counterexample: when synthesize fails on a video input, the merge
    command is still attempted (the source never checks that the TTS
    artifact exists before spawning ffmpeg); it then fails and leaves the
    merge error marker.  The claim's "no merge command is attempted" is
    refuted. -/
theorem c2_synth_counterexample :
    (processJob { envBase with ttsOk := false }).mergeAttempted = true
    ∧ Artifact.ttsErrTxt ∈ (processJob { envBase with ttsOk := false }).disk
    ∧ Artifact.mergeErrTxt ∈ (processJob { envBase with ttsOk := false }).disk
    ∧ Artifact.dubbedMp4 ∉ (processJob { envBase with ttsOk := false }).disk := by
  refine ⟨by decide, by decide, by decide, by decide⟩

/-- C2 amended: when synthesize fails, the worker writes
    `<stem>-tts.mp3.error.txt`, no TTS artifact exists, no merge succeeds
    and no `<stem>-dubbed.mp4` is produced; but when the input has a video
    stream (and the duration probe succeeds) the merge command is still
    attempted — it fails for lack of its TTS input, tolerated via
    `<stem>-merge.error.txt`. -/
theorem c2_synth_failure (env : Env) (hsrc : env.srcExists = true)
    (hex : env.extractOk = true) (htts : env.ttsOk = false) :
    Artifact.ttsErrTxt ∈ (processJob env).disk
    ∧ Artifact.ttsMp3 ∉ (processJob env).disk
    ∧ (processJob env).dubbedCreated = false
    ∧ Artifact.dubbedMp4 ∉ (processJob env).disk
    ∧ (env.probeVideo = Except.ok true → ∀ d, env.probeDur = Except.ok d →
        (processJob env).mergeAttempted = true
        ∧ Artifact.mergeErrTxt ∈ (processJob env).disk) := by
  rw [processJob_success env hsrc hex]
  obtain ⟨hm1, hm2, hm3⟩ := mergeStage_no_tts env htts
  refine ⟨?_, ?_, hm1, ?_, fun hv d hd => ⟨(hm3 hv d hd).1, ?_⟩⟩
  · show Artifact.ttsErrTxt ∈ diskOf env
    simp [diskOf, ttsDisk, htts]
  · show Artifact.ttsMp3 ∉ diskOf env
    intro hmem
    rw [ttsMp3_mem_diskOf env, htts] at hmem
    exact Bool.false_ne_true hmem
  · exact dubbedMp4_not_mem_diskOf_of_no_tts env htts
  · show Artifact.mergeErrTxt ∈ diskOf env
    rw [diskOf]
    simp only [List.mem_append]
    exact Or.inr (hm3 hv d hd).2

/-- C2 witness: a concrete synthesize-failure run on a video input. -/
theorem c2_synth_failure_witness :
    Artifact.ttsErrTxt ∈ (processJob { envBase with ttsOk := false }).disk
    ∧ Artifact.dubbedMp4 ∉ (processJob { envBase with ttsOk := false }).disk :=
  ⟨(c2_synth_failure { envBase with ttsOk := false } rfl rfl rfl).1,
   (c2_synth_failure { envBase with ttsOk := false } rfl rfl rfl).2.2.2.1⟩

/-! ### Claim C3 — tolerated transcription failure -/

/-- C3 counterexample: with a throwing ASR adapter the job completes, but
    the transcript file's content starts with `"TRANSCRIPT"` — the header
    the worker always writes — not with `"ASR error:"`; the error string
    only starts the body after the header. -/
theorem c3_asr_counterexample :
    (processJob { envBase with asr := Except.error "boom" }).failed = none
    ∧ jsStartsWith (processJob { envBase with
        asr := Except.error "boom" }).transcriptFileContent "ASR error:"
        = false
    ∧ jsStartsWith (processJob { envBase with
        asr := Except.error "boom" }).transcriptFileContent "TRANSCRIPT"
        = true := by
  refine ⟨by decide, by decide, by decide⟩

/-- C3 amended: if the ASR adapter throws, the job still completes (last
    report 100), the transcript file exists and its body — after the
    `TRANSCRIPT` header — starts with `"ASR error: <msg>"`, and the
    translate and synthesize stages still run, with the merge command
    still attempted when the input has a video stream. -/
theorem c3_asr_tolerated (env : Env) (msg : String)
    (hsrc : env.srcExists = true) (hex : env.extractOk = true)
    (hasr : env.asr = Except.error msg) :
    (processJob env).failed = none
    ∧ Artifact.transcriptTxt ∈ (processJob env).disk
    ∧ (processJob env).transcriptText = "ASR error: " ++ msg
    ∧ (∃ pre, (processJob env).transcriptFileContent
        = pre ++ "\n\n" ++ ("ASR error: " ++ msg) ++ "\n")
    ∧ (processJob env).translateCalled = true
    ∧ (processJob env).ttsCalled = true
    ∧ (processJob env).ttsInput = some (ttsInputFor (translatedTextOf env)
        ("ASR error: " ++ msg))
    ∧ (env.probeVideo = Except.ok true → ∀ d, env.probeDur = Except.ok d →
        (processJob env).mergeAttempted = true)
    ∧ (processJob env).trace.getLast? = some 100 := by
  rw [processJob_success env hsrc hex]
  have htext : transcriptTextOf env = "ASR error: " ++ msg := by
    rw [transcriptTextOf, hasr]
  refine ⟨rfl, ?_, htext, ?_, rfl, rfl, ?_, ?_, ?_⟩
  · show Artifact.transcriptTxt ∈ diskOf env
    simp [diskOf]
  · refine ⟨"TRANSCRIPT\nSource: " ++ env.originalname ++ "\nGenerated at: "
      ++ env.timestamp, ?_⟩
    show transcriptFullOf env = _
    rw [transcriptFullOf, htext]
  · show some (ttsInputFor (translatedTextOf env) (transcriptTextOf env)) = _
    rw [htext]
  · intro hv d hd
    exact mergeStage_attempted env hv d hd
  · show (traceOf env).getLast? = some 100
    rw [traceOf]
    exact List.getLast?_concat _

/-- C3 witness: a concrete throwing-ASR run still reaches completion with
    the error recorded in the transcript body. -/
theorem c3_asr_tolerated_witness :
    (processJob { envBase with asr := Except.error "boom" }).transcriptText
      = "ASR error: " ++ "boom" :=
  (c3_asr_tolerated { envBase with asr := Except.error "boom" } "boom"
    rfl rfl rfl).2.2.1

/-! ### Claim C7 — finalization postconditions -/

/-- C7 counterexample: when synthesize fails, the returned result still
    maps `tts` to `<stem>-tts.mp3`, a path that does not exist on disk
    (the source builds `result.tts` unconditionally), refuting "every path
    in the result exists on disk". -/
theorem c7_result_counterexample :
    ((processJob { envBase with ttsOk := false }).result.map ResultMap.tts)
      = some Artifact.ttsMp3
    ∧ Artifact.ttsMp3 ∉ (processJob { envBase with ttsOk := false }).disk := by
  refine ⟨by decide, by decide⟩

/-- C7 amended: for a completed execution, the `audio`, `transcript` and
    `translated` paths of the result exist on disk; the `tts` path is
    always present in the result but exists on disk iff synthesize
    succeeded; `dubbed` is present iff the merge stage succeeded and then
    exists on disk; and `enhancedAudio` is present iff the enhance stage
    ran and succeeded, and then exists on disk. -/
theorem c7_result (env : Env) (hsrc : env.srcExists = true)
    (hex : env.extractOk = true) :
    ∀ r, (processJob env).result = some r →
      r.audio ∈ (processJob env).disk
      ∧ r.transcript ∈ (processJob env).disk
      ∧ r.translated ∈ (processJob env).disk
      ∧ r.tts = Artifact.ttsMp3
      ∧ (r.tts ∈ (processJob env).disk ↔ env.ttsOk = true)
      ∧ (r.dubbed.isSome ↔ (processJob env).dubbedCreated = true)
      ∧ (∀ a, r.dubbed = some a → a ∈ (processJob env).disk)
      ∧ (r.enhancedAudio.isSome
          ↔ (enhanceFlagOf env = true ∧ env.enhanceOk = true))
      ∧ (∀ a, r.enhancedAudio = some a → a ∈ (processJob env).disk) := by
  rw [processJob_success env hsrc hex]
  simp only [successRun]
  intro r hr
  obtain rfl : r =
      { audio := Artifact.audioWav
        transcript := Artifact.transcriptTxt
        translated := Artifact.translatedTxt
        tts := Artifact.ttsMp3
        dubbed := if (mergeStage env).2.2.2 then some Artifact.dubbedMp4
          else none
        enhancedAudio := if Artifact.audioEnhanced ∈ diskOf env
          then some Artifact.audioEnhanced else none } := by
    simpa using hr.symm
  refine ⟨by simp [diskOf], by simp [diskOf], by simp [diskOf], rfl,
    ttsMp3_mem_diskOf env, ?_, ?_, ?_, ?_⟩
  · show (if (mergeStage env).2.2.2 = true then some Artifact.dubbedMp4
      else none).isSome = true ↔ (mergeStage env).2.2.2 = true
    by_cases hd : (mergeStage env).2.2.2 = true <;> simp [hd]
  · intro a ha
    by_cases hd : (mergeStage env).2.2.2 = true
    · rw [if_pos hd] at ha
      obtain rfl : a = Artifact.dubbedMp4 := by
        simpa using ha.symm
      show Artifact.dubbedMp4 ∈ diskOf env
      rw [diskOf]
      simp only [List.mem_append]
      exact Or.inr (mergeStage_dub env hd)
    · rw [if_neg hd] at ha
      simp at ha
  · rw [← audioEnhanced_mem_diskOf env]
    by_cases hm : Artifact.audioEnhanced ∈ diskOf env <;> simp [hm]
  · intro a ha
    by_cases hm : Artifact.audioEnhanced ∈ diskOf env
    · rw [if_pos hm] at ha
      obtain rfl : a = Artifact.audioEnhanced := by
        simpa using ha.symm
      exact hm
    · rw [if_neg hm] at ha
      simp at ha

/-- C7 witness: the happy-path run's result entries all exist on disk. -/
theorem c7_result_witness :
    Artifact.audioWav ∈ (processJob envBase).disk
    ∧ (Artifact.ttsMp3 ∈ (processJob envBase).disk ↔ envBase.ttsOk = true) :=
  ⟨(c7_result envBase rfl rfl
      { audio := Artifact.audioWav, transcript := Artifact.transcriptTxt,
        translated := Artifact.translatedTxt, tts := Artifact.ttsMp3,
        dubbed := some Artifact.dubbedMp4, enhancedAudio := none }
      (by decide)).1,
   (c7_result envBase rfl rfl
      { audio := Artifact.audioWav, transcript := Artifact.transcriptTxt,
        translated := Artifact.translatedTxt, tts := Artifact.ttsMp3,
        dubbed := some Artifact.dubbedMp4, enhancedAudio := none }
      (by decide)).2.2.2.2.1⟩

/-! ### Claim C5 — normalizer totality and schema -/

/-- C5 counterexample: the Shape A payload
    `{text: "", segments: [{text: "x", start: -1, end: 2}]}` normalizes to
    a segment whose start time is `-1 < 0`, refuting "every start and end
    time in the output is a finite number ≥ 0" (the source copies negative
    numbers unchanged: `Number(s.start || 0)` only defaults falsy values). -/
theorem c5_normalizer_counterexample :
    ((normalizeAsrResponse (JsVal.obj [("text", JsVal.str ""),
        ("segments", JsVal.arr [JsVal.obj [("text", JsVal.str "x"),
          ("start", JsVal.num (-1)), ("end", JsVal.num 2)]])])).segments.map
        NSeg.start = [some (-1)])
    ∧ (normalizeAsrResponse (JsVal.obj [("text", JsVal.str ""),
        ("segments", JsVal.arr [JsVal.obj [("text", JsVal.str "x"),
          ("start", JsVal.num (-1)), ("end", JsVal.num 2)]])])).timesOk
        = false := by
  constructor <;> decide

/-- C5 amended: the normalizer is total — on every payload it returns a
    record whose `text` is a string and whose `segments` are an ordered
    list of `{text, start, end, words?}`; and whenever every value in a
    time position of the payload is a non-negative finite number, falsy,
    or absent (`cleanPayload`), every segment-level start/end time of the
    output is a finite number ≥ 0 (missing or NaN numeric inputs default
    to 0).  Word arrays are passed through verbatim in Shape A, so the
    guarantee is stated for segment-level times. -/
theorem c5_normalizer_total (v : JsVal) :
    (normalizeAsrResponse v).text.isStr = true
    ∧ (cleanPayload v = true → (normalizeAsrResponse v).timesOk = true) :=
  ⟨normalize_text_isStr v, fun h => normalize_timesOk v h⟩

/-- C5 witness: a clean Shape A payload has non-negative finite output
    times. -/
theorem c5_normalizer_total_witness :
    (normalizeAsrResponse (JsVal.obj [("text", JsVal.str "hi"),
        ("segments", JsVal.arr [JsVal.obj [("start", JsVal.num 1),
          ("end", JsVal.num 2)]])])).timesOk = true :=
  (c5_normalizer_total (JsVal.obj [("text", JsVal.str "hi"),
    ("segments", JsVal.arr [JsVal.obj [("start", JsVal.num 1),
      ("end", JsVal.num 2)]])])).2 (by decide)

/-! ### Claim C9 — Shape B timing fields -/

/-- C9 counterexample: the Shape B payload
    `{segments: [{start: 0, duration: 5}]}` normalizes to `end = 0`, not
    `end = start + duration = 5`: the source gates the duration fallback
    on `s.start && s.duration`, and `0` is falsy, so a segment with
    `start = 0` never uses its duration.  (Likewise `start` uses the first
    *truthy* — not first present — of `start`, `begin`, `seek`.) -/
theorem c9_shapeB_counterexample :
    (normalizeAsrResponse (JsVal.obj [("segments",
        JsVal.arr [JsVal.obj [("start", JsVal.num 0),
          ("duration", JsVal.num 5)]])])).segments.map NSeg.stop = [some 0]
    ∧ (some (0:ℚ) ≠ some (5:ℚ)) := by
  constructor <;> decide

/-- C9 amended: for a payload `{segments: [...]}` without a top-level
    string `text`, each segment normalizes with
    `start = Number(first truthy of start, begin, seek; else 0)` and
    `end = Number(end)` if `end` is truthy, else
    `Number(start) + Number(duration)` if both `start` and `duration` are
    truthy, else `0`. -/
theorem c9_shapeB (segs : List JsVal) :
    (normalizeAsrResponse (JsVal.obj [("segments", JsVal.arr segs)])).segments
      = segs.map mapSegB
    ∧ ∀ s : JsVal,
      ((s.get "start").truthy = true →
        (mapSegB s).start = toNumber (s.get "start"))
      ∧ ((s.get "start").truthy = false → (s.get "begin").truthy = true →
        (mapSegB s).start = toNumber (s.get "begin"))
      ∧ ((s.get "start").truthy = false → (s.get "begin").truthy = false →
        (s.get "seek").truthy = true →
        (mapSegB s).start = toNumber (s.get "seek"))
      ∧ ((s.get "start").truthy = false → (s.get "begin").truthy = false →
        (s.get "seek").truthy = false → (mapSegB s).start = some 0)
      ∧ ((s.get "end").truthy = true →
        (mapSegB s).stop = toNumber (s.get "end"))
      ∧ ((s.get "end").truthy = false → (s.get "start").truthy = true →
        (s.get "duration").truthy = true →
        (mapSegB s).stop
          = addN (toNumber (s.get "start")) (toNumber (s.get "duration")))
      ∧ ((s.get "end").truthy = false →
        ¬ ((s.get "start").truthy = true ∧ (s.get "duration").truthy = true) →
        (mapSegB s).stop = some 0) := by
  refine ⟨rfl, fun s => ?_⟩
  refine ⟨fun h1 => ?_, fun h1 h2 => ?_, fun h1 h2 h3 => ?_, fun h1 h2 h3 => ?_,
    fun h4 => ?_, fun h4 h5 h6 => ?_, fun h4 h7 => ?_⟩
  · simp only [mapSegB, jsOr, if_pos h1]
  · simp only [mapSegB, jsOr, h1, h2]
    simp
  · simp only [mapSegB, jsOr, h1, h2, h3]
    simp
  · simp only [mapSegB, jsOr, h1, h2, h3]
    simp [toNumber]
  · simp only [mapSegB, jsOr, if_pos h4]
  · have hand : (jsAnd (s.get "start") (s.get "duration")).truthy = true :=
      jsAnd_truthy_of h5 h6
    simp only [mapSegB, jsOr, h4, if_pos hand]
    simp [toNumber_numToJs]
  · have hand : (jsAnd (s.get "start") (s.get "duration")).truthy = false := by
      by_cases hs : (s.get "start").truthy = true
      · rw [jsAnd, if_pos hs]
        rcases Bool.eq_false_or_eq_true (s.get "duration").truthy with h | h
        · exact absurd ⟨hs, h⟩ h7
        · exact h
      · rw [jsAnd, if_neg hs]
        exact Bool.eq_false_iff.mpr hs
    simp only [mapSegB, jsOr, h4, hand]
    simp [toNumber]

/-- C9 witness: a segment `{begin: 3, end: 7}` (with `start` absent)
    normalizes to `start = 3`, `end = 7`. -/
theorem c9_shapeB_witness :
    (mapSegB (JsVal.obj [("begin", JsVal.num 3), ("end", JsVal.num 7)])).start
        = toNumber ((JsVal.obj [("begin", JsVal.num 3),
            ("end", JsVal.num 7)]).get "begin")
    ∧ (mapSegB (JsVal.obj [("begin", JsVal.num 3), ("end", JsVal.num 7)])).stop
        = toNumber ((JsVal.obj [("begin", JsVal.num 3),
            ("end", JsVal.num 7)]).get "end") :=
  ⟨((c9_shapeB []).2 (JsVal.obj [("begin", JsVal.num 3),
      ("end", JsVal.num 7)])).2.1 (by decide) (by decide),
   ((c9_shapeB []).2 (JsVal.obj [("begin", JsVal.num 3),
      ("end", JsVal.num 7)])).2.2.2.2.1 (by decide)⟩

end Aiweb
